import Mathlib

/-!
Verification development for the TinyCompiler repository (src/src/main.cpp).

The development shallowly embeds the compiler pipeline:
tokenizer (`Tokenize`), recursive-descent parser (`Parse` /
`ParseCallExpression`), pre-order tree traversal fused with the
Lisp-to-Cpp transformer (`TransformLispAstToCppAst`), and the code
generator (`GenerateCode`, modelled from the specification because the
repository snapshot under src/ contains no code-generation stage).
Machine `int` values are modelled as unbounded `Int` (no claim concerns
integer overflow); `std::string` values become Lean `String`.
-/

/-! ## Definitions -/

/-- The three token kinds of `Token::Type` in main.cpp. -/
inductive TokType where
  | paren
  | name
  | number
deriving DecidableEq, Repr

/-- The `Token` struct: a kind and the literal text. -/
structure Tok where
  type : TokType
  value : String
deriving DecidableEq, Repr

/-- The `isalpha` character class of the C locale, restricted to ASCII:
codepoints 97-122 are a-z, 65-90 are A-Z.  For bytes above 127 the C
call is implementation-defined; the model treats every non-ASCII-letter
as "other", which matches the usual implementations returning false
there. -/
def isAlphaChar (c : Char) : Bool :=
  (97 ≤ c.toNat && c.toNat ≤ 122) || (65 ≤ c.toNat && c.toNat ≤ 90)

/-- The `isdigit` character class: ASCII digits, codepoints 48-57. -/
def isDigitChar (c : Char) : Bool :=
  48 ≤ c.toNat && c.toNat ≤ 57

/-- The whitespace test of the tokenizer: space, tab or newline. -/
def isWsChar (c : Char) : Bool :=
  c = ' ' || c = '\t' || c = '\n'

/-- The single lexical error: `throw std::exception("Unexpected character")`. -/
inductive LexErr where
  | unexpectedCharacter
deriving DecidableEq, Repr

/-- The tokenizer state variant: `Looking`, `InString` (the buffered
name text) or `InNumber` (the buffered digit text).  These are exactly
the three states of the `std::experimental::variant` in `Tokenize`. -/
inductive LexState where
  | looking
  | inString (buf : String)
  | inNumber (buf : String)
deriving DecidableEq, Repr

/-- One-character-at-a-time state machine of `Tokenize`.

The C++ loop sometimes switches state *without* consuming the current
character (entering a run from `Looking`, and leaving a run back to
`Looking`); the same character is then re-processed in the new state.
`lexGo` fuses each such switch with the consuming step that necessarily
follows, so every recursive call consumes exactly one character:

* `looking` on a letter runs the two C++ steps "switch to `InString`"
  then "`InString` appends and consumes" at once (likewise for digits);
* `inString` on a non-letter runs "emit the `Name` token, switch to
  `Looking`" and then `Looking`'s handling of that same character
  (whitespace / paren / digit-start / error; the letter branch of
  `Looking` cannot fire because the character is not a letter), and
  symmetrically for `inNumber`.

When the input ends while in `inString`/`inNumber`, the C++ loop
`while (i < text.size())` simply exits: the pending buffered token is
*dropped*, never emitted.  The `[]` equation reflects that.  When the
`Looking` logic throws, the C++ exception also discards the token
vector built so far, hence a bare `.error` with no token output. -/
def lexGo : LexState → List Char → Except LexErr (List Tok)
  | _, [] => .ok []
  | .looking, c :: cs =>
    if isWsChar c then lexGo .looking cs
    else if c = '(' || c = ')' then
      (fun ts => Tok.mk .paren (String.mk [c]) :: ts) <$> lexGo .looking cs
    else if isAlphaChar c then lexGo (.inString (String.mk [c])) cs
    else if isDigitChar c then lexGo (.inNumber (String.mk [c])) cs
    else .error .unexpectedCharacter
  | .inString buf, c :: cs =>
    if isAlphaChar c then lexGo (.inString (buf.push c)) cs
    else if isWsChar c then
      (fun ts => Tok.mk .name buf :: ts) <$> lexGo .looking cs
    else if c = '(' || c = ')' then
      (fun ts => Tok.mk .name buf :: Tok.mk .paren (String.mk [c]) :: ts) <$> lexGo .looking cs
    else if isDigitChar c then
      (fun ts => Tok.mk .name buf :: ts) <$> lexGo (.inNumber (String.mk [c])) cs
    else .error .unexpectedCharacter
  | .inNumber buf, c :: cs =>
    if isDigitChar c then lexGo (.inNumber (buf.push c)) cs
    else if isWsChar c then
      (fun ts => Tok.mk .number buf :: ts) <$> lexGo .looking cs
    else if c = '(' || c = ')' then
      (fun ts => Tok.mk .number buf :: Tok.mk .paren (String.mk [c]) :: ts) <$> lexGo .looking cs
    else if isAlphaChar c then
      (fun ts => Tok.mk .number buf :: ts) <$> lexGo (.inString (String.mk [c])) cs
    else .error .unexpectedCharacter

/-- `std::vector<Token> Tokenize(const std::string text)`, starting in
the `Looking` state.  A thrown `std::exception` becomes `Except.error`. -/
def Tokenize (text : String) : Except LexErr (List Tok) :=
  lexGo .looking text.data

/-- The source AST node variants of namespace `LispAst`: `ProgramNode`
(name, body), `CallExpressionNode` (name, params) and
`NumberLiteralNode` (value).  All three derive from `Node`, so any
variant can sit in any child vector; the closed inductive mirrors the
closed variant set. -/
inductive LNode where
  | program (name : String) (body : List LNode)
  | call (name : String) (params : List LNode)
  | num (value : Int)
deriving Repr

/-- The parse errors thrown by `Parse` / `ParseCallExpression`:
* `programStart`  — "Program must start with '('"
* `expectingName` — "Expecting function name immediately after '('"
* `unexpectedName` — "Unexpected name token in argument list"
* `missingParen`  — "Missing ')' to end call expression"
* `derefEnd`      — not a throw in the source: `ParseCallExpression`
  reads `*iter` before checking `iter != endIter`, so calling it with no
  tokens left dereferences the end iterator, which is undefined
  behaviour in C++.  The model makes that control point a distinct
  outcome instead of a `ParseError`. -/
inductive PErr where
  | programStart
  | expectingName
  | unexpectedName
  | missingParen
  | derefEnd
deriving DecidableEq, Repr

/-- `std::stoi` as applied to the digit-only `Number` token texts the
tokenizer produces: the numeric value of the decimal digits.
Out-of-range values are idealized because the model integers are
unbounded. -/
def stoi (s : String) : Int :=
  Int.ofNat (s.data.foldl (fun acc c => acc * 10 + (c.toNat - '0'.toNat)) 0)

mutual

/-- `LispAst::ParseCallExpression`: called with the cursor just past the
opening `(`; returns the parsed call node and the remaining tokens
(bundled with a length bound used only for termination).  The first
token must be the callee `Name`; note the dereference of the cursor
*before* any end check (`derefEnd` above). -/
def ParseCallExpression : (toks : List Tok) →
    Except PErr (LNode × { l : List Tok // l.length ≤ toks.length })
  | [] => .error .derefEnd
  | t :: rest =>
    if t.type = TokType.name then
      match parseArgs t.value [] rest with
      | .ok (node, ⟨l, hl⟩) => .ok (node, ⟨l, by simpa using Nat.le_succ_of_le hl⟩)
      | .error e => .error e
    else .error .expectingName
termination_by toks => toks.length

/-- The argument loop of `ParseCallExpression` (`while (iter != endIter)`),
carrying the callee name and the parameters parsed so far.  A `Paren`
token whose text is not `")"` is treated as an opening paren (the code
only compares against `")"`); exhausting the tokens yields
`missingParen`. -/
def parseArgs (name : String) (acc : List LNode) : (toks : List Tok) →
    Except PErr (LNode × { l : List Tok // l.length ≤ toks.length })
  | [] => .error .missingParen
  | t :: rest =>
    match t.type with
    | TokType.name => .error .unexpectedName
    | TokType.number =>
      match parseArgs name (acc ++ [LNode.num (stoi t.value)]) rest with
      | .ok (node, ⟨l, hl⟩) => .ok (node, ⟨l, by simpa using Nat.le_succ_of_le hl⟩)
      | .error e => .error e
    | TokType.paren =>
      if t.value = ")" then .ok (LNode.call name acc, ⟨rest, by simp⟩)
      else
        match ParseCallExpression rest with
        | .ok (arg, ⟨l, hl⟩) =>
          match parseArgs name (acc ++ [arg]) l with
          | .ok (node, ⟨l2, hl2⟩) =>
            .ok (node, ⟨l2, by simp; omega⟩)
          | .error e => .error e
        | .error e => .error e
termination_by toks => toks.length
decreasing_by
  all_goals simp
  omega

end

/-- The top-level loop of `LispAst::Parse`: each top-level construct
must start with a `Paren` token of text `"("`, then one call expression
is parsed; the accumulated calls become the `ProgramNode` body.  The
`ProgramNode` is default-constructed, so its `name` is the empty
string. -/
def parseProgram (acc : List LNode) : (toks : List Tok) → Except PErr LNode
  | [] => .ok (LNode.program "" acc)
  | t :: rest =>
    if t.type = TokType.paren ∧ t.value = "(" then
      match ParseCallExpression rest with
      | .ok (node, ⟨l, _⟩) => parseProgram (acc ++ [node]) l
      | .error e => .error e
    else .error .programStart
termination_by toks => toks.length
decreasing_by simp; omega

/-- `LispAst::Parse`. -/
def Parse (tokens : List Tok) : Except PErr LNode :=
  parseProgram [] tokens

/-- `ParseCallExpression` without the termination bound on the leftover
tokens (the bound exists only to justify recursion); all reasoning
happens over this version. -/
def ParseCallExpressionT (toks : List Tok) : Except PErr (LNode × List Tok) :=
  (ParseCallExpression toks).map (fun p => (p.1, p.2.val))

/-- `parseArgs` without the termination bound on the leftover tokens. -/
def parseArgsT (name : String) (acc : List LNode) (toks : List Tok) :
    Except PErr (LNode × List Tok) :=
  (parseArgs name acc toks).map (fun p => (p.1, p.2.val))

/-- Number of `(` and `)` characters in a text. -/
def parenCount (cs : List Char) : Nat :=
  cs.countP (fun c => c = '(' || c = ')')

/-- Number of maximal letter-runs plus maximal digit-runs in a text. -/
def runCount : List Char → Nat
  | [] => 0
  | c :: cs =>
    if isAlphaChar c then 1 + runCount (cs.dropWhile isAlphaChar)
    else if isDigitChar c then 1 + runCount (cs.dropWhile isDigitChar)
    else runCount cs
termination_by cs => cs.length
decreasing_by
  · have h : (List.dropWhile isAlphaChar cs).length ≤ cs.length :=
      (List.dropWhile_sublist isAlphaChar).length_le
    simp
    omega
  · have h : (List.dropWhile isDigitChar cs).length ≤ cs.length :=
      (List.dropWhile_sublist isDigitChar).length_le
    simp
    omega
  · simp

/-- Whether a text ends with a letter or digit, i.e. whether the
tokenizer is in `InString`/`InNumber` when the input ends. -/
def endsInRun (cs : List Char) : Bool :=
  match cs.getLast? with
  | some c => isAlphaChar c || isDigitChar c
  | none => false

/-- A character the `Looking` state accepts. -/
def goodChar (c : Char) : Bool :=
  isWsChar c || c = '(' || c = ')' || isAlphaChar c || isDigitChar c

/-- Whether the whole pipeline front end accepts a text: tokenization
succeeds and the token sequence parses. -/
def SyntacticallyValid (text : String) : Bool :=
  match Tokenize text with
  | .ok toks =>
    match Parse toks with
    | .ok _ => true
    | .error _ => false
  | .error _ => false

/-- Token shapes forming one complete, parseable call-expression
argument: a `Number` token, or a parenthesized call with a callee name
and further complete arguments. -/
inductive ArgToks where
  | numTok (s : String)
  | callTok (name : String) (args : List ArgToks)

mutual

/-- The token sequence of one complete argument block. -/
def argToksFlat : ArgToks → List Tok
  | .numTok s => [Tok.mk .number s]
  | .callTok n args =>
    Tok.mk .paren "(" :: Tok.mk .name n :: (argToksFlatList args ++ [Tok.mk .paren ")"])

/-- The token sequence of a list of complete argument blocks. -/
def argToksFlatList : List ArgToks → List Tok
  | [] => []
  | a :: as => argToksFlat a ++ argToksFlatList as

end

mutual

/-- The node `ParseCallExpression` builds from one argument block. -/
def argNode : ArgToks → LNode
  | .numTok s => .num (stoi s)
  | .callTok n args => .call n (argNodeList args)

/-- The nodes built from a list of argument blocks. -/
def argNodeList : List ArgToks → List LNode
  | [] => []
  | a :: as => argNode a :: argNodeList as

end

/-- The target (Cpp) AST node variants of namespace `CppAst`:
`ProgramNode`, `ExpressionStatementNode` (holding a call expression),
`CallExpressionNode` (an `IdentifierNode` callee plus params),
`IdentifierNode` and `NumberLiteralNode`.  The C++ types restrict
`exprStmt`'s child to a call expression and `callExpr`'s callee to an
identifier; the transformer only ever builds such shapes. -/
inductive CNode where
  | program (name : String) (body : List CNode)
  | exprStmt (expression : CNode)
  | callExpr (callee : CNode) (params : List CNode)
  | ident (name : String)
  | numLit (value : Int)

/-- A Cpp node under construction during the transform: its data plus
the cell index of its params vector (for the two call-bearing shapes).
The transformer in the source mutates a partially built tree through
aliased `std::vector` references held in `m_context`, keyed by Lisp
node addresses; the model makes that heap explicit with numbered cells,
node identities being paths of child indices from the root (in
bijection with addresses). -/
inductive CRef where
  | exprStmt (callee : String) (paramsCell : Nat)
  | callExpr (callee : String) (paramsCell : Nat)
  | numLit (value : Int)

/-- The internal-consistency faults (assertions and undefined
behaviour) of the traversal and the transformer:
* `programWithParent` — `assert(parent == nullptr)` in `Visit`;
* `nullParent` — `*parent` dereference when `parent` is null (UB);
* `programTwice` — `assert(m_programNode == nullptr)`;
* `noProgram` — `assert(m_programNode)` in the call/number visits;
* `missingTarget` — `assert(iter != m_context.end())` in
  `GetContextVector`. -/
inductive IErr where
  | programWithParent
  | nullParent
  | programTwice
  | noProgram
  | missingTarget
deriving DecidableEq, Repr

/-- The transformer state: the heap of child vectors, the construction
context `m_context` (most recent entry first; lookups of the distinct
node identities are order-insensitive), and `m_programNode`
(represented by its body's cell index when present). -/
structure TState where
  cells : List (List CRef)
  ctx : List (List Nat × Nat)
  programCell : Option Nat

/-- Lookup in `m_context` (`m_context.find`). -/
def ctxFind : List (List Nat × Nat) → List Nat → Option Nat
  | [], _ => none
  | (k, v) :: rest, p => if k = p then some v else ctxFind rest p

mutual

/-- `LispAst::Visit` fused with `Transformer`'s `OnVisit` overloads: the
visitor's side effects on the state, followed by the pre-order
recursion into the children.  `parent` carries the parent's identity
and whether its variant is `CallExpressionNode` (the
`dynamic_cast<const LispAst::CallExpressionNode*>(&parent)` test);
`path` is the current node's identity. -/
def transformVisit : LNode → Option (List Nat × Bool) → List Nat → TState →
    Except IErr TState
  | .program _ body, parent, path, s =>
    match parent with
    | some _ => .error .programWithParent
    | none =>
      match s.programCell with
      | some _ => .error .programTwice
      | none =>
        transformVisitList body (some (path, false)) path 0
          ⟨s.cells ++ [[]], (path, s.cells.length) :: s.ctx, some s.cells.length⟩
  | .call nm params, parent, path, s =>
    match parent with
    | none => .error .nullParent
    | some (pp, pIsCall) =>
      match s.programCell with
      | none => .error .noProgram
      | some _ =>
        -- create the CallExpressionNode with its Identifier callee and a
        -- fresh (empty) params vector, and register it in m_context
        -- before resolving the parent's insertion target
        match ctxFind ((path, s.cells.length) :: s.ctx) pp with
        | none => .error .missingTarget
        | some k =>
          transformVisitList params (some (path, true)) path 0
            ⟨((s.cells ++ [[]]).set k ((s.cells ++ [[]]).getD k [] ++
                [if pIsCall then CRef.callExpr nm s.cells.length
                 else CRef.exprStmt nm s.cells.length])),
             (path, s.cells.length) :: s.ctx, s.programCell⟩
  | .num v, parent, _, s =>
    match parent with
    | none => .error .nullParent
    | some (pp, _) =>
      match s.programCell with
      | none => .error .noProgram
      | some _ =>
        match ctxFind s.ctx pp with
        | none => .error .missingTarget
        | some k =>
          .ok ⟨s.cells.set k (s.cells.getD k [] ++ [CRef.numLit v]), s.ctx, s.programCell⟩

/-- Pre-order visitation of a child list, threading the state and
assigning child identities `path ++ [i]`. -/
def transformVisitList : List LNode → Option (List Nat × Bool) → List Nat → Nat → TState →
    Except IErr TState
  | [], _, _, _, s => .ok s
  | x :: xs, parent, parentPath, i, s =>
    match transformVisit x parent (parentPath ++ [i]) s with
    | .ok s2 => transformVisitList xs parent parentPath (i + 1) s2
    | .error e => .error e

end

mutual

/-- Read one built node back from the cell heap.  The guard `k < c`
reflects that a node's params cell is always allocated after the cell
holding the node, which makes the recursion well-founded; the
dead else-branches are never taken on transformer-produced heaps. -/
def reifyRef (cells : List (List CRef)) (k : Nat) : CRef → CNode
  | .numLit v => CNode.numLit v
  | .callExpr n c =>
    if _h : k < c ∧ c < cells.length then
      CNode.callExpr (CNode.ident n) (reifyCell cells c)
    else CNode.callExpr (CNode.ident n) []
  | .exprStmt n c =>
    if _h : k < c ∧ c < cells.length then
      CNode.exprStmt (CNode.callExpr (CNode.ident n) (reifyCell cells c))
    else CNode.exprStmt (CNode.callExpr (CNode.ident n) [])
termination_by (cells.length - k, 0)

/-- Read a whole child vector back from the heap. -/
def reifyCell (cells : List (List CRef)) (k : Nat) : List CNode :=
  (cells.getD k []).map (reifyRef cells k)
termination_by (cells.length - k, 1)

end

/-- `TransformLispAstToCppAst`: run the fused traversal from the root
(null parent, empty path, empty state), then read the built tree off
the heap.  The Cpp `ProgramNode` is default-constructed, hence its
empty name.  A successful traversal from a null parent implies the root
was a `ProgramNode`, so `m_programNode` is set; the `none` arm is
unreachable and maps to the `noProgram` assertion. -/
def TransformLispAstToCppAst (lispAst : LNode) : Except IErr CNode :=
  match transformVisit lispAst none [] ⟨[], [], none⟩ with
  | .error e => .error e
  | .ok s =>
    match s.programCell with
    | none => .error .noProgram
    | some pc => .ok (CNode.program "" (reifyCell s.cells pc))

mutual

/-- Structural description of what the transformer builds from a call
or number node sitting in argument position (parent is a
`CallExpressionNode`): calls become bare `CallExpression` nodes with an
`Identifier` callee, numbers become `NumberLiteral` nodes.  The
`program` arm is never reached on parser output. -/
def cppOfArg : LNode → CNode
  | .call n ps => CNode.callExpr (CNode.ident n) (cppOfArgs ps)
  | .num v => CNode.numLit v
  | .program _ _ => CNode.numLit 0

/-- Structural transform of an argument list. -/
def cppOfArgs : List LNode → List CNode
  | [] => []
  | x :: xs => cppOfArg x :: cppOfArgs xs

end

/-- Structural description for a top-level body element (parent is the
`ProgramNode`): the built `CallExpression` is wrapped in an
`ExpressionStatement`. -/
def cppOfTop : LNode → CNode
  | .call n ps => CNode.exprStmt (CNode.callExpr (CNode.ident n) (cppOfArgs ps))
  | x => cppOfArg x

/-- Structural description of the whole transform on a `ProgramNode`. -/
def cppOfProgram : LNode → CNode
  | .program _ body => CNode.program "" (body.map cppOfTop)
  | x => cppOfArg x

mutual

/-- Shape of the trees `ParseCallExpression` can return in argument
position: calls over well-formed arguments, or numbers; never a
`ProgramNode`. -/
def WFArg : LNode → Bool
  | .program _ _ => false
  | .call _ ps => WFArgs ps
  | .num _ => true

/-- All elements well-formed as arguments. -/
def WFArgs : List LNode → Bool
  | [] => true
  | x :: xs => WFArg x && WFArgs xs

end

/-- Shape of a top-level body element produced by `Parse`: always a
call expression over well-formed arguments. -/
def WFTop : LNode → Bool
  | .call _ ps => WFArgs ps
  | _ => false

/-- Shape of a tree produced by `Parse`. -/
def WFProgram : LNode → Bool
  | .program _ body => body.all WFTop
  | _ => false

mutual

/-- Number of nodes of a source tree. -/
def countL : LNode → Nat
  | .program _ body => 1 + countLs body
  | .call _ ps => 1 + countLs ps
  | .num _ => 1

/-- Number of nodes of a source forest. -/
def countLs : List LNode → Nat
  | [] => 0
  | x :: xs => countL x + countLs xs

end

mutual

/-- Number of call-expression nodes of a source tree. -/
def callCountL : LNode → Nat
  | .program _ body => callCountLs body
  | .call _ ps => 1 + callCountLs ps
  | .num _ => 0

/-- Number of call-expression nodes of a source forest. -/
def callCountLs : List LNode → Nat
  | [] => 0
  | x :: xs => callCountL x + callCountLs xs

end

/-- Number of direct children of the source `Program` (the top-level
call expressions). -/
def topCount : LNode → Nat
  | .program _ body => body.length
  | _ => 0

mutual

/-- Number of nodes of a target tree.  Every allocated `Node` object
counts, the `IdentifierNode` callees included. -/
def countC : CNode → Nat
  | .program _ body => 1 + countCs body
  | .exprStmt e => 1 + countC e
  | .callExpr callee ps => 1 + countC callee + countCs ps
  | .ident _ => 1
  | .numLit _ => 1

/-- Number of nodes of a target forest. -/
def countCs : List CNode → Nat
  | [] => 0
  | x :: xs => countC x + countCs xs

end

/-- The target node the transformer attaches for a source node whose
parent is a call (`pIsCall = true`, bare) or not (`false`, wrapped when
the node is itself a call). -/
def targetOf (t : LNode) (pIsCall : Bool) : CNode :=
  if pIsCall then cppOfArg t else cppOfTop t

/-- Contents of heap cell `k` (out-of-range reads as empty; never used
out of range on transformer states). -/
def cellAt (cells : List (List CRef)) (k : Nat) : List CRef :=
  cells.getD k []

/-- Induction statement for one argument-position subtree: visiting it
from a state whose context resolves the parent's insertion target to
cell `k` succeeds, appends exactly one built node to cell `k`, only
allocates fresh cells, registers only identities at or below the
subtree's path, and the built node reads back (on any heap extension
agreeing on the fresh cells) as the structural transform. -/
def SimA (t : LNode) : Prop :=
  ∀ (s : TState) (pp path : List Nat) (pIsCall : Bool) (k : Nat),
    ctxFind s.ctx pp = some k →
    k < s.cells.length →
    s.programCell.isSome = true →
    pp.length < path.length →
    ∃ (s2 : TState) (E : List (List Nat × Nat)) (r : CRef),
      transformVisit t (some (pp, pIsCall)) path s = .ok s2 ∧
      s2.programCell = s.programCell ∧
      s2.ctx = E ++ s.ctx ∧
      (∀ e ∈ E, path.length ≤ e.1.length) ∧
      s.cells.length ≤ s2.cells.length ∧
      (∀ j, j < s.cells.length → j ≠ k → cellAt s2.cells j = cellAt s.cells j) ∧
      cellAt s2.cells k = cellAt s.cells k ++ [r] ∧
      (∀ cells2 : List (List CRef), s2.cells.length ≤ cells2.length →
        (∀ j, s.cells.length ≤ j → j < s2.cells.length → cellAt cells2 j = cellAt s2.cells j) →
        ∀ k2, k2 < s.cells.length → reifyRef cells2 k2 r = targetOf t pIsCall)

/-- Induction statement for a child list in argument position. -/
def SimL (ts : List LNode) : Prop :=
  ∀ (s : TState) (p : List Nat) (isC : Bool) (i : Nat) (c : Nat),
    ctxFind s.ctx p = some c →
    c < s.cells.length →
    s.programCell.isSome = true →
    ∃ (s2 : TState) (E : List (List Nat × Nat)) (rs : List CRef),
      transformVisitList ts (some (p, isC)) p i s = .ok s2 ∧
      s2.programCell = s.programCell ∧
      s2.ctx = E ++ s.ctx ∧
      (∀ e ∈ E, p.length < e.1.length) ∧
      s.cells.length ≤ s2.cells.length ∧
      (∀ j, j < s.cells.length → j ≠ c → cellAt s2.cells j = cellAt s.cells j) ∧
      cellAt s2.cells c = cellAt s.cells c ++ rs ∧
      (∀ cells2 : List (List CRef), s2.cells.length ≤ cells2.length →
        (∀ j, s.cells.length ≤ j → j < s2.cells.length → cellAt cells2 j = cellAt s2.cells j) →
        ∀ k2, k2 < s.cells.length →
          rs.map (reifyRef cells2 k2) = ts.map (fun t => targetOf t isC))

mutual

/-- No `ExpressionStatement` occurs in this target subtree. -/
def noStmtInside : CNode → Bool
  | .program _ _ => false
  | .exprStmt _ => false
  | .callExpr callee ps => noStmtInside callee && noStmtInsideList ps
  | .ident _ => true
  | .numLit _ => true

/-- No `ExpressionStatement` occurs in this target forest. -/
def noStmtInsideList : List CNode → Bool
  | [] => true
  | x :: xs => noStmtInside x && noStmtInsideList xs

end

/-- The statement-wrapping shape: a target `Program` whose body
elements are all `ExpressionStatement`s over call expressions, with no
`ExpressionStatement` anywhere below them. -/
def stmtWrapOnlyTop : CNode → Bool
  | .program _ body => body.all (fun x =>
      match x with
      | .exprStmt e =>
        match e with
        | .callExpr callee ps => noStmtInside callee && noStmtInsideList ps
        | _ => false
      | _ => false)
  | _ => false

mutual

/-- Modelled from the spec: the code generator of section 4.5 is absent
from the repository snapshot under src/ (the pipeline there stops after
the transformation), so this stage is reconstructed from the
specification's rendering rules: `Program` renders an entry-point
wrapper around one statement per body element; `ExpressionStatement`
renders its expression plus a statement terminator; `CallExpression`
renders callee, `(`, the parameters separated by `, `, and `)`;
`Identifier` renders its name verbatim; `NumberLiteral` renders its
decimal text.  Rendering is a pure function of the tree — stateless and
recursive — so identical trees yield identical text by construction. -/
def GenerateCode : CNode → String
  | .program _ body => "int main() \x7b\n" ++ genStatements body ++ "\x7d\n"
  | .exprStmt e => GenerateCode e ++ ";"
  | .callExpr callee ps => GenerateCode callee ++ "(" ++ genParams ps ++ ")"
  | .ident n => n
  | .numLit v => toString v

/-- Modelled from the spec: one rendered statement per body element,
each on its own line. -/
def genStatements : List CNode → String
  | [] => ""
  | x :: xs => GenerateCode x ++ "\n" ++ genStatements xs

/-- Modelled from the spec: parameters joined by `, ` placed strictly
between adjacent elements, each parameter rendered exactly once. -/
def genParams : List CNode → String
  | [] => ""
  | [x] => GenerateCode x
  | x :: y :: xs => GenerateCode x ++ ", " ++ genParams (y :: xs)

end

/-! ## Theorems -/

theorem ParseCallExpressionT_nil : ParseCallExpressionT [] = .error .derefEnd := by
  rw [ParseCallExpressionT, ParseCallExpression]; rfl

/-- Step equation: `ParseCallExpression` first dereferences the cursor
and requires a `Name` token (the callee). -/
theorem ParseCallExpressionT_cons (t : Tok) (rest : List Tok) :
    ParseCallExpressionT (t :: rest) =
      if t.type = TokType.name then parseArgsT t.value [] rest
      else .error .expectingName := by
  rw [ParseCallExpressionT, ParseCallExpression]
  by_cases h : t.type = TokType.name
  · simp only [h, if_true, parseArgsT]
    rcases hp : parseArgs t.value [] rest with e | ⟨node, ⟨l, hl⟩⟩ <;> simp [hp, Except.map]
  · simp [h, Except.map]

theorem parseArgsT_nil (name : String) (acc : List LNode) :
    parseArgsT name acc [] = .error .missingParen := by
  rw [parseArgsT, parseArgs]; rfl

theorem parseArgsT_name (name : String) (acc : List LNode) (v : String) (rest : List Tok) :
    parseArgsT name acc (Tok.mk .name v :: rest) = .error .unexpectedName := by
  rw [parseArgsT, parseArgs]; rfl

theorem parseArgsT_number (name : String) (acc : List LNode) (v : String) (rest : List Tok) :
    parseArgsT name acc (Tok.mk .number v :: rest) =
      parseArgsT name (acc ++ [LNode.num (stoi v)]) rest := by
  rw [parseArgsT, parseArgs, parseArgsT]
  rcases hp : parseArgs name (acc ++ [LNode.num (stoi v)]) rest with e | ⟨node, ⟨l, hl⟩⟩ <;>
    simp [hp, Except.map]

theorem parseArgsT_close (name : String) (acc : List LNode) (rest : List Tok) :
    parseArgsT name acc (Tok.mk .paren ")" :: rest) = .ok (LNode.call name acc, rest) := by
  rw [parseArgsT, parseArgs]
  simp [Except.map]

theorem parseArgsT_open (name : String) (acc : List LNode) (v : String) (hv : v ≠ ")")
    (rest : List Tok) :
    parseArgsT name acc (Tok.mk .paren v :: rest) =
      match ParseCallExpressionT rest with
      | .ok (arg, l) => parseArgsT name (acc ++ [arg]) l
      | .error e => .error e := by
  rw [parseArgsT, parseArgs, ParseCallExpressionT]
  simp only [hv, if_false]
  rcases hp : ParseCallExpression rest with e | ⟨arg, ⟨l, hl⟩⟩
  · simp [hp, Except.map]
  · simp only [hp, Except.map]
    rw [parseArgsT]
    rcases hq : parseArgs name (acc ++ [arg]) l with e | ⟨node, ⟨l2, hl2⟩⟩ <;>
      simp [hq, Except.map]

theorem parseProgram_nil (acc : List LNode) :
    parseProgram acc [] = .ok (LNode.program "" acc) := by
  rw [parseProgram]

theorem parseProgram_cons (acc : List LNode) (t : Tok) (rest : List Tok) :
    parseProgram acc (t :: rest) =
      if t.type = TokType.paren ∧ t.value = "(" then
        match ParseCallExpressionT rest with
        | .ok (node, l) => parseProgram (acc ++ [node]) l
        | .error e => .error e
      else .error .programStart := by
  rw [parseProgram, ParseCallExpressionT]
  by_cases h : t.type = TokType.paren ∧ t.value = "("
  · simp only [h, if_true]
    rcases hp : ParseCallExpression rest with e | ⟨node, ⟨l, hl⟩⟩ <;> simp [hp, Except.map]
  · simp [h]

theorem string_push_append (buf : String) (c : Char) (l : List Char) :
    buf.push c ++ String.mk l = buf ++ String.mk (c :: l) := by
  cases buf with
  | mk d => apply String.ext; simp [String.push]

theorem string_append_nil (buf : String) : buf ++ String.mk [] = buf := by
  cases buf with
  | mk d => apply String.ext; simp

/-- Leaving the `InString` state on a non-letter emits the buffered
`Name` token and re-processes the same character in `Looking`. -/
theorem lexGo_inString_exit (buf : String) (c : Char) (cs : List Char)
    (h : isAlphaChar c = false) :
    lexGo (.inString buf) (c :: cs) =
      (fun ts => Tok.mk .name buf :: ts) <$> lexGo .looking (c :: cs) := by
  simp only [lexGo, h, Bool.false_eq_true, if_false]
  split_ifs <;> cases hx : lexGo .looking cs <;> simp_all [Except.map]

/-- Leaving the `InNumber` state on a non-digit emits the buffered
`Number` token and re-processes the same character in `Looking`. -/
theorem lexGo_inNumber_exit (buf : String) (c : Char) (cs : List Char)
    (h : isDigitChar c = false) :
    lexGo (.inNumber buf) (c :: cs) =
      (fun ts => Tok.mk .number buf :: ts) <$> lexGo .looking (c :: cs) := by
  simp only [lexGo, h, Bool.false_eq_true, if_false]
  split_ifs <;> cases hx : lexGo .looking cs <;> simp_all [Except.map]

/-- In state `InString`, the machine consumes the maximal letter run;
if the input ends inside the run the pending token is dropped,
otherwise the `Name` token is emitted and scanning resumes in
`Looking`. -/
theorem lexGo_inString_run (cs : List Char) : ∀ buf : String,
    lexGo (.inString buf) cs =
      if (cs.dropWhile isAlphaChar).isEmpty then .ok []
      else (fun ts => Tok.mk .name (buf ++ String.mk (cs.takeWhile isAlphaChar)) :: ts) <$>
        lexGo .looking (cs.dropWhile isAlphaChar) := by
  induction cs with
  | nil => intro buf; simp [lexGo]
  | cons c cs ih =>
    intro buf
    by_cases h : isAlphaChar c
    · have hstep : lexGo (.inString buf) (c :: cs) = lexGo (.inString (buf.push c)) cs := by
        simp [lexGo, h]
      rw [hstep, ih (buf.push c)]
      simp [List.dropWhile_cons, List.takeWhile_cons, h, string_push_append]
    · have hna : isAlphaChar c = false := by simpa using h
      rw [lexGo_inString_exit buf c cs hna]
      simp [List.dropWhile_cons, List.takeWhile_cons, hna, string_append_nil]

/-- In state `InNumber`, the machine consumes the maximal digit run;
symmetric to `lexGo_inString_run`. -/
theorem lexGo_inNumber_run (cs : List Char) : ∀ buf : String,
    lexGo (.inNumber buf) cs =
      if (cs.dropWhile isDigitChar).isEmpty then .ok []
      else (fun ts => Tok.mk .number (buf ++ String.mk (cs.takeWhile isDigitChar)) :: ts) <$>
        lexGo .looking (cs.dropWhile isDigitChar) := by
  induction cs with
  | nil => intro buf; simp [lexGo]
  | cons c cs ih =>
    intro buf
    by_cases h : isDigitChar c
    · have hstep : lexGo (.inNumber buf) (c :: cs) = lexGo (.inNumber (buf.push c)) cs := by
        simp [lexGo, h]
      rw [hstep, ih (buf.push c)]
      simp [List.dropWhile_cons, List.takeWhile_cons, h, string_push_append]
    · have hnd : isDigitChar c = false := by simpa using h
      rw [lexGo_inNumber_exit buf c cs hnd]
      simp [List.dropWhile_cons, List.takeWhile_cons, hnd, string_append_nil]

theorem alpha_classes (c : Char) (h : isAlphaChar c = true) :
    isWsChar c = false ∧ (c = '(' || c = ')') = false ∧ isDigitChar c = false := by
  refine ⟨?_, ?_, ?_⟩
  · cases hw : isWsChar c
    · rfl
    · simp only [isWsChar, Bool.or_eq_true, decide_eq_true_eq] at hw
      rcases hw with (rfl | rfl) | rfl <;> exact absurd h (by decide)
  · cases hp : (c = '(' || c = ')')
    · rfl
    · simp only [Bool.or_eq_true, decide_eq_true_eq] at hp
      rcases hp with rfl | rfl <;> exact absurd h (by decide)
  · simp only [isAlphaChar, Bool.or_eq_true, Bool.and_eq_true, decide_eq_true_eq] at h
    simp only [isDigitChar, Bool.and_eq_true, decide_eq_true_eq]
    cases hd : (decide (48 ≤ c.toNat) && decide (c.toNat ≤ 57))
    · rfl
    · simp only [Bool.and_eq_true, decide_eq_true_eq] at hd
      omega

theorem digit_classes (c : Char) (h : isDigitChar c = true) :
    isWsChar c = false ∧ (c = '(' || c = ')') = false ∧ isAlphaChar c = false := by
  refine ⟨?_, ?_, ?_⟩
  · cases hw : isWsChar c
    · rfl
    · simp only [isWsChar, Bool.or_eq_true, decide_eq_true_eq] at hw
      rcases hw with (rfl | rfl) | rfl <;> exact absurd h (by decide)
  · cases hp : (c = '(' || c = ')')
    · rfl
    · simp only [Bool.or_eq_true, decide_eq_true_eq] at hp
      rcases hp with rfl | rfl <;> exact absurd h (by decide)
  · simp only [isDigitChar, Bool.and_eq_true, decide_eq_true_eq] at h
    simp only [isAlphaChar, Bool.or_eq_true, Bool.and_eq_true, decide_eq_true_eq]
    cases ha : ((decide (97 ≤ c.toNat) && decide (c.toNat ≤ 122)) ||
        (decide (65 ≤ c.toNat) && decide (c.toNat ≤ 90)))
    · rfl
    · simp only [Bool.or_eq_true, Bool.and_eq_true, decide_eq_true_eq] at ha
      omega

theorem length_dropWhile_le {α : Type} (p : α → Bool) (cs : List α) :
    (cs.dropWhile p).length ≤ cs.length := by
  induction cs with
  | nil => simp
  | cons c cs ih =>
    by_cases h : p c
    · simp only [List.dropWhile_cons, h, if_true, List.length_cons]
      omega
    · simp [List.dropWhile_cons, h]

theorem lexGo_looking_ws (c : Char) (cs : List Char) (h : isWsChar c = true) :
    lexGo .looking (c :: cs) = lexGo .looking cs := by
  simp [lexGo, h]

theorem lexGo_looking_paren (c : Char) (cs : List Char) (hw : isWsChar c = false)
    (hp : (c = '(' || c = ')') = true) :
    lexGo .looking (c :: cs) =
      (fun ts => Tok.mk .paren (String.mk [c]) :: ts) <$> lexGo .looking cs := by
  simp [lexGo, hw, hp]

theorem lexGo_looking_alpha (c : Char) (cs : List Char) (ha : isAlphaChar c = true) :
    lexGo .looking (c :: cs) = lexGo (.inString (String.mk [c])) cs := by
  obtain ⟨hw, hp, _⟩ := alpha_classes c ha
  simp [lexGo, hw, hp, ha]

theorem lexGo_looking_digit (c : Char) (cs : List Char) (hd : isDigitChar c = true) :
    lexGo .looking (c :: cs) = lexGo (.inNumber (String.mk [c])) cs := by
  obtain ⟨hw, hp, ha⟩ := digit_classes c hd
  simp [lexGo, hw, hp, ha, hd]

theorem lexGo_looking_bad (c : Char) (cs : List Char) (h : goodChar c = false) :
    lexGo .looking (c :: cs) = .error .unexpectedCharacter := by
  simp only [goodChar, Bool.or_eq_false_iff, decide_eq_false_iff_not] at h
  obtain ⟨⟨⟨⟨hw, h1⟩, h2⟩, ha⟩, hd⟩ := h
  simp [lexGo, hw, h1, h2, ha, hd]

theorem getLast?_cons_ne {α : Type} (a : α) (l : List α) (h : l ≠ []) :
    (a :: l).getLast? = l.getLast? := by
  cases l with
  | nil => exact absurd rfl h
  | cons b m => exact List.getLast?_cons_cons

theorem getLast?_dropWhile {α : Type} (p : α → Bool) (l : List α)
    (h : l.dropWhile p ≠ []) : (l.dropWhile p).getLast? = l.getLast? := by
  induction l with
  | nil => simp at h
  | cons c cs ih =>
    by_cases hp : p c
    · rw [List.dropWhile_cons_of_pos hp] at h ⊢
      rw [ih h, getLast?_cons_ne]
      intro hnil
      rw [hnil] at h
      simp at h
    · rw [List.dropWhile_cons_of_neg hp]

theorem dropWhile_ne_nil_of_last {α : Type} (p : α → Bool) (l : List α) (x : α)
    (hx : l.getLast? = some x) (hp : p x = false) : l.dropWhile p ≠ [] := by
  intro hnil
  rw [List.dropWhile_eq_nil_iff] at hnil
  have hmem : x ∈ l := List.mem_of_mem_getLast? hx
  rw [hnil x hmem] at hp
  cases hp

theorem takeWhile_append_of_drop_ne_nil {α : Type} (p : α → Bool) (a b : List α)
    (h : a.dropWhile p ≠ []) : (a ++ b).takeWhile p = a.takeWhile p := by
  rw [List.takeWhile_append]
  have hlen : (a.takeWhile p).length + (a.dropWhile p).length = a.length := by
    conv_rhs => rw [← List.takeWhile_append_dropWhile p a]
    rw [List.length_append]
  have hne : (a.takeWhile p).length ≠ a.length := by
    intro heq
    have : (a.dropWhile p).length = 0 := by omega
    exact h (List.length_eq_zero.mp this)
  simp [hne]

theorem dropWhile_append_of_drop_ne_nil {α : Type} (p : α → Bool) (a b : List α)
    (h : a.dropWhile p ≠ []) : (a ++ b).dropWhile p = a.dropWhile p ++ b := by
  rw [List.dropWhile_append]
  simp [List.isEmpty_iff, h]

/-- A nonempty all-letter or all-digit text tokenizes to the empty
token sequence: the single run is pending when the input ends and is
dropped. -/
theorem lexGo_looking_all_run (r : List Char) (hne : r ≠ [])
    (hrun : (∀ c ∈ r, isAlphaChar c = true) ∨ (∀ c ∈ r, isDigitChar c = true)) :
    lexGo .looking r = .ok [] := by
  cases r with
  | nil => exact absurd rfl hne
  | cons c r' =>
    rcases hrun with hall | hall
    · rw [lexGo_looking_alpha c r' (hall c (by simp)), lexGo_inString_run]
      have : r'.dropWhile isAlphaChar = [] := by
        rw [List.dropWhile_eq_nil_iff]
        intro x hx
        exact hall x (by simp [hx])
      simp [this]
    · rw [lexGo_looking_digit c r' (hall c (by simp)), lexGo_inNumber_run]
      have : r'.dropWhile isDigitChar = [] := by
        rw [List.dropWhile_eq_nil_iff]
        intro x hx
        exact hall x (by simp [hx])
      simp [this]

/-- Bounded-length form of the trailing-run theorem, set up for strong
induction on the length of the prefix. -/
theorem lexGo_append_run_aux (n : Nat) : ∀ (s r : List Char), s.length ≤ n → r ≠ [] →
    ((∀ c ∈ r, isAlphaChar c = true) ∨ (∀ c ∈ r, isDigitChar c = true)) →
    (∀ x, s.getLast? = some x → isAlphaChar x = false ∧ isDigitChar x = false) →
    lexGo .looking (s ++ r) = lexGo .looking s := by
  induction n with
  | zero =>
    intro s r hlen hne hrun _
    have : s = [] := List.length_eq_zero.mp (Nat.le_zero.mp hlen)
    subst this
    simp only [List.nil_append, lexGo]
    exact lexGo_looking_all_run r hne hrun
  | succ n ih =>
    intro s r hlen hne hrun hlast
    cases s with
    | nil =>
      simp only [List.nil_append, lexGo]
      exact lexGo_looking_all_run r hne hrun
    | cons c s' =>
      have hlen' : s'.length ≤ n := by
        simp only [List.length_cons] at hlen
        omega
      have hlast' : ∀ x, s'.getLast? = some x →
          isAlphaChar x = false ∧ isDigitChar x = false := by
        intro x hx
        apply hlast
        rw [getLast?_cons_ne c s']
        · exact hx
        · intro hnil
          rw [hnil] at hx
          cases hx
      by_cases hw : isWsChar c = true
      · rw [List.cons_append, lexGo_looking_ws c _ hw, lexGo_looking_ws c _ hw]
        exact ih s' r hlen' hne hrun hlast'
      · replace hw : isWsChar c = false := by simpa using hw
        by_cases hp : (c = '(' || c = ')') = true
        · rw [List.cons_append, lexGo_looking_paren c _ hw hp, lexGo_looking_paren c _ hw hp,
            ih s' r hlen' hne hrun hlast']
        · by_cases ha : isAlphaChar c = true
          · -- the prefix enters a letter run; its maximal run ends inside `s'`
            -- because the last character of `s` is not a letter
            have hs' : s' ≠ [] := by
              intro hnil
              subst hnil
              have := hlast c rfl
              rw [this.1] at ha
              cases ha
            obtain ⟨x, hx⟩ : ∃ x, s'.getLast? = some x := by
              cases hgl : s'.getLast? with
              | none => exact absurd (List.getLast?_eq_none_iff.mp hgl) hs'
              | some y => exact ⟨y, rfl⟩
            have hxna : isAlphaChar x = false := (hlast' x hx).1
            have hd : s'.dropWhile isAlphaChar ≠ [] :=
              dropWhile_ne_nil_of_last isAlphaChar s' x hx hxna
            rw [List.cons_append, lexGo_looking_alpha c _ ha, lexGo_looking_alpha c _ ha,
              lexGo_inString_run, lexGo_inString_run,
              dropWhile_append_of_drop_ne_nil _ _ _ hd,
              takeWhile_append_of_drop_ne_nil _ _ _ hd]
            have hdr : (s'.dropWhile isAlphaChar ++ r).isEmpty = false := by
              simp [List.isEmpty_iff, hd]
            have hdne : (s'.dropWhile isAlphaChar).isEmpty = false := by
              simp [List.isEmpty_iff, hd]
            rw [hdr, hdne,
              ih (s'.dropWhile isAlphaChar) r
                (le_trans (length_dropWhile_le _ _) hlen') hne hrun
                (fun y hy => hlast' y (by rw [← getLast?_dropWhile _ _ hd]; exact hy))]
          · by_cases hdg : isDigitChar c = true
            · have hs' : s' ≠ [] := by
                intro hnil
                subst hnil
                have := hlast c rfl
                rw [this.2] at hdg
                cases hdg
              obtain ⟨x, hx⟩ : ∃ x, s'.getLast? = some x := by
                cases hgl : s'.getLast? with
                | none => exact absurd (List.getLast?_eq_none_iff.mp hgl) hs'
                | some y => exact ⟨y, rfl⟩
              have hxnd : isDigitChar x = false := (hlast' x hx).2
              have hd : s'.dropWhile isDigitChar ≠ [] :=
                dropWhile_ne_nil_of_last isDigitChar s' x hx hxnd
              rw [List.cons_append, lexGo_looking_digit c _ hdg, lexGo_looking_digit c _ hdg,
                lexGo_inNumber_run, lexGo_inNumber_run,
                dropWhile_append_of_drop_ne_nil _ _ _ hd,
                takeWhile_append_of_drop_ne_nil _ _ _ hd]
              have hdr : (s'.dropWhile isDigitChar ++ r).isEmpty = false := by
                simp [List.isEmpty_iff, hd]
              have hdne : (s'.dropWhile isDigitChar).isEmpty = false := by
                simp [List.isEmpty_iff, hd]
              rw [hdr, hdne,
                ih (s'.dropWhile isDigitChar) r
                  (le_trans (length_dropWhile_le _ _) hlen') hne hrun
                  (fun y hy => hlast' y (by rw [← getLast?_dropWhile _ _ hd]; exact hy))]
            · have hbad : goodChar c = false := by
                simp only [goodChar, Bool.or_eq_false_iff]
                simp only [Bool.or_eq_true, decide_eq_true_eq] at hp
                refine ⟨⟨⟨⟨hw, ?_⟩, ?_⟩, by simpa using ha⟩, by simpa using hdg⟩
                · simp only [decide_eq_false_iff_not]
                  intro hc
                  exact hp (Or.inl hc)
                · simp only [decide_eq_false_iff_not]
                  intro hc
                  exact hp (Or.inr hc)
              rw [List.cons_append, lexGo_looking_bad c _ hbad, lexGo_looking_bad c _ hbad]

theorem ws_classes (c : Char) (h : isWsChar c = true) :
    (c = '(' || c = ')') = false ∧ isAlphaChar c = false ∧ isDigitChar c = false := by
  simp only [isWsChar, Bool.or_eq_true, decide_eq_true_eq] at h
  rcases h with (rfl | rfl) | rfl <;> exact ⟨by decide, by decide, by decide⟩

theorem paren_classes (c : Char) (h : (c = '(' || c = ')') = true) :
    isWsChar c = false ∧ isAlphaChar c = false ∧ isDigitChar c = false := by
  simp only [Bool.or_eq_true, decide_eq_true_eq] at h
  rcases h with rfl | rfl <;> exact ⟨by decide, by decide, by decide⟩

theorem endsInRun_cons_ne (c : Char) (cs : List Char) (h : cs ≠ []) :
    endsInRun (c :: cs) = endsInRun cs := by
  simp [endsInRun, getLast?_cons_ne c cs h]

theorem runCount_nil : runCount [] = 0 := by
  rw [runCount]

theorem runCount_alpha (c : Char) (cs : List Char) (h : isAlphaChar c = true) :
    runCount (c :: cs) = 1 + runCount (cs.dropWhile isAlphaChar) := by
  rw [runCount]
  simp [h]

theorem runCount_digit (c : Char) (cs : List Char) (ha : isAlphaChar c = false)
    (hd : isDigitChar c = true) :
    runCount (c :: cs) = 1 + runCount (cs.dropWhile isDigitChar) := by
  rw [runCount]
  simp [ha, hd]

theorem runCount_other (c : Char) (cs : List Char) (ha : isAlphaChar c = false)
    (hd : isDigitChar c = false) :
    runCount (c :: cs) = runCount cs := by
  rw [runCount]
  simp [ha, hd]

theorem parenCount_all_alpha (cs : List Char) (h : ∀ c ∈ cs, isAlphaChar c = true) :
    parenCount cs = 0 := by
  rw [parenCount, List.countP_eq_zero]
  intro c hc
  simp [(alpha_classes c (h c hc)).2.1]

theorem parenCount_all_digit (cs : List Char) (h : ∀ c ∈ cs, isDigitChar c = true) :
    parenCount cs = 0 := by
  rw [parenCount, List.countP_eq_zero]
  intro c hc
  simp [(digit_classes c (h c hc)).2.1]

theorem parenCount_cons (c : Char) (cs : List Char) :
    parenCount (c :: cs) = parenCount cs + (if (c = '(' || c = ')') = true then 1 else 0) := by
  simp [parenCount, List.countP_cons]

theorem endsInRun_cons_not_run (c : Char) (cs : List Char) (ha : isAlphaChar c = false)
    (hd : isDigitChar c = false) : endsInRun (c :: cs) = endsInRun cs := by
  cases cs with
  | nil => simp [endsInRun, ha, hd]
  | cons d ds => exact endsInRun_cons_ne c (d :: ds) (by simp)

/-- Bounded-length token-count invariant: on success, the number of
tokens plus a correction for an unflushed trailing run equals the paren
count plus the maximal-run count. -/
theorem lexGo_count_aux (n : Nat) : ∀ (cs : List Char) (toks : List Tok), cs.length ≤ n →
    lexGo .looking cs = .ok toks →
    toks.length + (if endsInRun cs then 1 else 0) = parenCount cs + runCount cs := by
  induction n with
  | zero =>
    intro cs toks hlen hok
    have : cs = [] := List.length_eq_zero.mp (Nat.le_zero.mp hlen)
    subst this
    simp only [lexGo, Except.ok.injEq] at hok
    subst hok
    simp [endsInRun, parenCount, runCount_nil]
  | succ n ih =>
    intro cs toks hlen hok
    cases cs with
    | nil =>
      simp only [lexGo, Except.ok.injEq] at hok
      subst hok
      simp [endsInRun, parenCount, runCount_nil]
    | cons c cs' =>
      have hlen' : cs'.length ≤ n := by
        simp only [List.length_cons] at hlen
        omega
      by_cases hw : isWsChar c = true
      · obtain ⟨hp, ha, hd⟩ := ws_classes c hw
        rw [lexGo_looking_ws c cs' hw] at hok
        have heq := ih cs' toks hlen' hok
        rw [parenCount_cons, hp, runCount_other c cs' ha hd,
          endsInRun_cons_not_run c cs' ha hd]
        simp only [Bool.false_eq_true, if_false, Nat.add_zero]
        exact heq
      · replace hw : isWsChar c = false := by simpa using hw
        by_cases hp : (c = '(' || c = ')') = true
        · obtain ⟨_, ha, hd⟩ := paren_classes c hp
          rw [lexGo_looking_paren c cs' hw hp] at hok
          rcases hrec : lexGo .looking cs' with e | ts'
          · rw [hrec] at hok
            cases hok
          · rw [hrec] at hok
            simp only [Except.map_ok, Except.ok.injEq] at hok
            subst hok
            have heq := ih cs' ts' hlen' hrec
            rw [parenCount_cons, hp, runCount_other c cs' ha hd,
              endsInRun_cons_not_run c cs' ha hd]
            simp only [if_true, List.length_cons]
            omega
        · replace hp : (c = '(' || c = ')') = false := by simpa using hp
          by_cases ha : isAlphaChar c = true
          · -- letter run: the run token is emitted iff the run ends before
            -- the input does
            rw [lexGo_looking_alpha c cs' ha, lexGo_inString_run] at hok
            rcases hdw : cs'.dropWhile isAlphaChar with _ | ⟨d, ds⟩
            · rw [hdw] at hok
              simp only [List.isEmpty_nil, if_true, Except.ok.injEq] at hok
              subst hok
              have hall : ∀ x ∈ cs', isAlphaChar x = true :=
                List.dropWhile_eq_nil_iff.mp hdw
              have hends : endsInRun (c :: cs') = true := by
                cases hcs' : cs' with
                | nil => simp [endsInRun, ha]
                | cons d ds =>
                  rw [← hcs', endsInRun_cons_ne c cs' (by simp [hcs'])]
                  obtain ⟨x, hx⟩ : ∃ x, cs'.getLast? = some x := by
                    cases hgl : cs'.getLast? with
                    | none =>
                      rw [List.getLast?_eq_none_iff.mp hgl] at hcs'
                      cases hcs'
                    | some y => exact ⟨y, rfl⟩
                  have := hall x (List.mem_of_mem_getLast? hx)
                  simp [endsInRun, hx, this]
              rw [hends]
              have hpz : parenCount (c :: cs') = 0 :=
                parenCount_all_alpha _ (by
                  intro x hx
                  rcases List.mem_cons.mp hx with rfl | hmem
                  · exact ha
                  · exact hall x hmem)
              rw [hpz, runCount_alpha c cs' ha, hdw, runCount_nil]
              simp
            · rw [hdw] at hok
              simp only [List.isEmpty_cons, Bool.false_eq_true, if_false] at hok
              rcases hrec : lexGo .looking (d :: ds) with e | ts'
              · rw [hrec] at hok
                cases hok
              · rw [hrec] at hok
                simp only [Except.map_ok, Except.ok.injEq] at hok
                subst hok
                have hlend : (d :: ds).length ≤ n := by
                  have h1 := length_dropWhile_le isAlphaChar cs'
                  rw [hdw] at h1
                  simp only [List.length_cons] at h1 ⊢
                  omega
                have heq := ih (d :: ds) ts' hlend hrec
                have hcs'ne : cs' ≠ [] := by
                  intro hnil
                  rw [hnil] at hdw
                  cases hdw
                have hdne : cs'.dropWhile isAlphaChar ≠ [] := by
                  rw [hdw]
                  simp
                have hends : endsInRun (c :: cs') = endsInRun (d :: ds) := by
                  rw [endsInRun_cons_ne c cs' hcs'ne, ← hdw]
                  simp [endsInRun, getLast?_dropWhile isAlphaChar cs' hdne]
                have hsplit : parenCount cs' = parenCount (d :: ds) := by
                  conv_lhs => rw [← List.takeWhile_append_dropWhile isAlphaChar cs', hdw]
                  rw [parenCount, List.countP_append]
                  have hz : parenCount (cs'.takeWhile isAlphaChar) = 0 :=
                    parenCount_all_alpha _ (fun x hx => List.mem_takeWhile_imp hx)
                  rw [parenCount] at hz
                  rw [hz, parenCount]
                  omega
                rw [hends, parenCount_cons, hp, hsplit, runCount_alpha c cs' ha, hdw]
                simp only [Bool.false_eq_true, if_false, Nat.add_zero, List.length_cons]
                omega
          · replace ha : isAlphaChar c = false := by simpa using ha
            by_cases hd : isDigitChar c = true
            · rw [lexGo_looking_digit c cs' hd, lexGo_inNumber_run] at hok
              rcases hdw : cs'.dropWhile isDigitChar with _ | ⟨d, ds⟩
              · rw [hdw] at hok
                simp only [List.isEmpty_nil, if_true, Except.ok.injEq] at hok
                subst hok
                have hall : ∀ x ∈ cs', isDigitChar x = true :=
                  List.dropWhile_eq_nil_iff.mp hdw
                have hends : endsInRun (c :: cs') = true := by
                  cases hcs' : cs' with
                  | nil => simp [endsInRun, hd]
                  | cons d ds =>
                    rw [← hcs', endsInRun_cons_ne c cs' (by simp [hcs'])]
                    obtain ⟨x, hx⟩ : ∃ x, cs'.getLast? = some x := by
                      cases hgl : cs'.getLast? with
                      | none =>
                        rw [List.getLast?_eq_none_iff.mp hgl] at hcs'
                        cases hcs'
                      | some y => exact ⟨y, rfl⟩
                    have := hall x (List.mem_of_mem_getLast? hx)
                    simp [endsInRun, hx, this]
                rw [hends]
                have hpz : parenCount (c :: cs') = 0 :=
                  parenCount_all_digit _ (by
                    intro x hx
                    rcases List.mem_cons.mp hx with rfl | hmem
                    · exact hd
                    · exact hall x hmem)
                rw [hpz, runCount_digit c cs' ha hd, hdw, runCount_nil]
                simp
              · rw [hdw] at hok
                simp only [List.isEmpty_cons, Bool.false_eq_true, if_false] at hok
                rcases hrec : lexGo .looking (d :: ds) with e | ts'
                · rw [hrec] at hok
                  cases hok
                · rw [hrec] at hok
                  simp only [Except.map_ok, Except.ok.injEq] at hok
                  subst hok
                  have hlend : (d :: ds).length ≤ n := by
                    have h1 := length_dropWhile_le isDigitChar cs'
                    rw [hdw] at h1
                    simp only [List.length_cons] at h1 ⊢
                    omega
                  have heq := ih (d :: ds) ts' hlend hrec
                  have hcs'ne : cs' ≠ [] := by
                    intro hnil
                    rw [hnil] at hdw
                    cases hdw
                  have hdne : cs'.dropWhile isDigitChar ≠ [] := by
                    rw [hdw]
                    simp
                  have hends : endsInRun (c :: cs') = endsInRun (d :: ds) := by
                    rw [endsInRun_cons_ne c cs' hcs'ne, ← hdw]
                    simp [endsInRun, getLast?_dropWhile isDigitChar cs' hdne]
                  have hsplit : parenCount cs' = parenCount (d :: ds) := by
                    conv_lhs => rw [← List.takeWhile_append_dropWhile isDigitChar cs', hdw]
                    rw [parenCount, List.countP_append]
                    have hz : parenCount (cs'.takeWhile isDigitChar) = 0 :=
                      parenCount_all_digit _ (fun x hx => List.mem_takeWhile_imp hx)
                    rw [parenCount] at hz
                    rw [hz, parenCount]
                    omega
                  rw [hends, parenCount_cons, hp, hsplit, runCount_digit c cs' ha hd, hdw]
                  simp only [Bool.false_eq_true, if_false, Nat.add_zero, List.length_cons]
                  omega
            · replace hd : isDigitChar c = false := by simpa using hd
              have hbad : goodChar c = false := by
                simp only [goodChar, Bool.or_eq_false_iff]
                simp only [Bool.or_eq_false_iff] at hp
                exact ⟨⟨⟨⟨hw, hp.1⟩, hp.2⟩, ha⟩, hd⟩
              rw [lexGo_looking_bad c cs' hbad] at hok
              cases hok

theorem mem_of_mem_dropWhile {α : Type} (p : α → Bool) (l : List α) (x : α)
    (h : x ∈ l.dropWhile p) : x ∈ l := by
  induction l with
  | nil => simp at h
  | cons c cs ih =>
    by_cases hp : p c
    · rw [List.dropWhile_cons_of_pos hp] at h
      exact List.mem_cons_of_mem c (ih h)
    · rw [List.dropWhile_cons_of_neg hp] at h
      exact h

theorem dropWhile_append_mid {α : Type} (p : α → Bool) (a : List α) (c : α) (b : List α)
    (hc : p c = false) : (a ++ c :: b).dropWhile p = a.dropWhile p ++ c :: b := by
  rcases hd : a.dropWhile p with _ | ⟨x, xs⟩
  · rw [List.dropWhile_append, hd]
    simp [List.dropWhile_cons, hc]
  · rw [dropWhile_append_of_drop_ne_nil p a (c :: b) (by rw [hd]; simp), hd]

theorem bad_classes (c : Char) (h : goodChar c = false) :
    isWsChar c = false ∧ (c = '(' || c = ')') = false ∧
      isAlphaChar c = false ∧ isDigitChar c = false := by
  simp only [goodChar, Bool.or_eq_false_iff] at h
  exact ⟨h.1.1.1.1, by simp [h.1.1.1.2, h.1.1.2], h.1.2, h.2⟩

/-- Bounded-length characterization: scanning from `Looking` fails
exactly when some character is outside the accepted classes. -/
theorem lexGo_error_iff_aux (n : Nat) : ∀ cs : List Char, cs.length ≤ n →
    (lexGo .looking cs = .error .unexpectedCharacter ↔ ∃ c ∈ cs, goodChar c = false) := by
  induction n with
  | zero =>
    intro cs hlen
    have : cs = [] := List.length_eq_zero.mp (Nat.le_zero.mp hlen)
    subst this
    simp [lexGo]
  | succ n ih =>
    intro cs hlen
    cases cs with
    | nil => simp [lexGo]
    | cons c cs' =>
      have hlen' : cs'.length ≤ n := by
        simp only [List.length_cons] at hlen
        omega
      by_cases hw : isWsChar c = true
      · rw [lexGo_looking_ws c cs' hw, ih cs' hlen']
        have hgood : goodChar c = true := by simp [goodChar, hw]
        simp [hgood]
      · replace hw : isWsChar c = false := by simpa using hw
        by_cases hp : (c = '(' || c = ')') = true
        · rw [lexGo_looking_paren c cs' hw hp]
          have hgood : goodChar c = true := by
            simp only [Bool.or_eq_true, decide_eq_true_eq] at hp
            rcases hp with rfl | rfl <;> decide
          rcases hrec : lexGo .looking cs' with e | ts'
          · cases e
            rcases (ih cs' hlen').mp hrec with ⟨x, hx, hbad⟩
            constructor
            · intro _
              exact ⟨x, List.mem_cons_of_mem c hx, hbad⟩
            · intro _
              rfl
          · have hnoerr : ¬ ∃ x ∈ cs', goodChar x = false := by
              intro hex
              rw [(ih cs' hlen').mpr hex] at hrec
              cases hrec
            simp only [Except.map_ok]
            constructor
            · intro h
              cases h
            · intro hex
              rcases hex with ⟨x, hx, hbad⟩
              rcases List.mem_cons.mp hx with rfl | hmem
              · rw [hgood] at hbad
                cases hbad
              · exact absurd ⟨x, hmem, hbad⟩ hnoerr
        · replace hp : (c = '(' || c = ')') = false := by simpa using hp
          by_cases ha : isAlphaChar c = true
          · rw [lexGo_looking_alpha c cs' ha, lexGo_inString_run]
            have hgood : goodChar c = true := by simp [goodChar, ha]
            rcases hdw : cs'.dropWhile isAlphaChar with _ | ⟨d, ds⟩
            · have hall : ∀ x ∈ cs', isAlphaChar x = true :=
                List.dropWhile_eq_nil_iff.mp hdw
              simp only [List.isEmpty_nil, if_true]
              constructor
              · intro h
                cases h
              · intro hex
                rcases hex with ⟨x, hx, hbad⟩
                rcases List.mem_cons.mp hx with rfl | hmem
                · rw [hgood] at hbad
                  cases hbad
                · rw [show goodChar x = true by simp [goodChar, hall x hmem]] at hbad
                  cases hbad
            · simp only [List.isEmpty_cons, Bool.false_eq_true, if_false]
              have hlend : (d :: ds).length ≤ n := by
                have h1 := length_dropWhile_le isAlphaChar cs'
                rw [hdw] at h1
                simp only [List.length_cons] at h1 ⊢
                omega
              have hiff := ih (d :: ds) hlend
              constructor
              · intro h
                rcases hrec : lexGo .looking (d :: ds) with e | ts'
                · cases e
                  rcases hiff.mp hrec with ⟨x, hx, hbad⟩
                  refine ⟨x, ?_, hbad⟩
                  right
                  exact mem_of_mem_dropWhile isAlphaChar cs' x (by rw [hdw]; exact hx)
                · rw [hrec] at h
                  cases h
              · intro hex
                rcases hex with ⟨x, hx, hbad⟩
                have hxd : x ∈ d :: ds := by
                  rcases List.mem_cons.mp hx with rfl | hmem
                  · rw [hgood] at hbad
                    cases hbad
                  · -- x sits in cs'; it cannot be in the all-letter prefix
                    rw [← hdw]
                    conv at hmem => rw [← List.takeWhile_append_dropWhile isAlphaChar cs']
                    rcases List.mem_append.mp hmem with htk | hdr
                    · have := List.mem_takeWhile_imp htk
                      rw [show goodChar x = true by simp [goodChar, this]] at hbad
                      cases hbad
                    · exact hdr
                rw [hiff.mpr ⟨x, hxd, hbad⟩]
                simp [Except.map]
          · replace ha : isAlphaChar c = false := by simpa using ha
            by_cases hd : isDigitChar c = true
            · rw [lexGo_looking_digit c cs' hd, lexGo_inNumber_run]
              have hgood : goodChar c = true := by simp [goodChar, hd]
              rcases hdw : cs'.dropWhile isDigitChar with _ | ⟨d, ds⟩
              · have hall : ∀ x ∈ cs', isDigitChar x = true :=
                  List.dropWhile_eq_nil_iff.mp hdw
                simp only [List.isEmpty_nil, if_true]
                constructor
                · intro h
                  cases h
                · intro hex
                  rcases hex with ⟨x, hx, hbad⟩
                  rcases List.mem_cons.mp hx with rfl | hmem
                  · rw [hgood] at hbad
                    cases hbad
                  · rw [show goodChar x = true by simp [goodChar, hall x hmem]] at hbad
                    cases hbad
              · simp only [List.isEmpty_cons, Bool.false_eq_true, if_false]
                have hlend : (d :: ds).length ≤ n := by
                  have h1 := length_dropWhile_le isDigitChar cs'
                  rw [hdw] at h1
                  simp only [List.length_cons] at h1 ⊢
                  omega
                have hiff := ih (d :: ds) hlend
                constructor
                · intro h
                  rcases hrec : lexGo .looking (d :: ds) with e | ts'
                  · cases e
                    rcases hiff.mp hrec with ⟨x, hx, hbad⟩
                    refine ⟨x, ?_, hbad⟩
                    right
                    exact mem_of_mem_dropWhile isDigitChar cs' x (by rw [hdw]; exact hx)
                  · rw [hrec] at h
                    cases h
                · intro hex
                  rcases hex with ⟨x, hx, hbad⟩
                  have hxd : x ∈ d :: ds := by
                    rcases List.mem_cons.mp hx with rfl | hmem
                    · rw [hgood] at hbad
                      cases hbad
                    · rw [← hdw]
                      conv at hmem => rw [← List.takeWhile_append_dropWhile isDigitChar cs']
                      rcases List.mem_append.mp hmem with htk | hdr
                      · have := List.mem_takeWhile_imp htk
                        rw [show goodChar x = true by simp [goodChar, this]] at hbad
                        cases hbad
                      · exact hdr
                  rw [hiff.mpr ⟨x, hxd, hbad⟩]
                  simp [Except.map]
            · replace hd : isDigitChar c = false := by simpa using hd
              have hbad : goodChar c = false := by
                simp only [goodChar, Bool.or_eq_false_iff] at hp ⊢
                exact ⟨⟨⟨⟨hw, hp.1⟩, hp.2⟩, ha⟩, hd⟩
              rw [lexGo_looking_bad c cs' hbad]
              exact ⟨fun _ => ⟨c, by simp, hbad⟩, fun _ => rfl⟩

/-- Bounded-length form: the scan fails as soon as it reaches the first
bad character, whatever follows it. -/
theorem lexGo_first_bad_aux (n : Nat) : ∀ (s1 : List Char) (c : Char) (s2 : List Char),
    s1.length ≤ n → (∀ a ∈ s1, goodChar a = true) → goodChar c = false →
    lexGo .looking (s1 ++ c :: s2) = .error .unexpectedCharacter := by
  induction n with
  | zero =>
    intro s1 c s2 hlen _ hbad
    have : s1 = [] := List.length_eq_zero.mp (Nat.le_zero.mp hlen)
    subst this
    exact lexGo_looking_bad c s2 hbad
  | succ n ih =>
    intro s1 c s2 hlen hgood hbad
    obtain ⟨hcw, hcp, hca, hcd⟩ := bad_classes c hbad
    cases s1 with
    | nil => exact lexGo_looking_bad c s2 hbad
    | cons a s1' =>
      have hlen' : s1'.length ≤ n := by
        simp only [List.length_cons] at hlen
        omega
      have hgood' : ∀ x ∈ s1', goodChar x = true :=
        fun x hx => hgood x (List.mem_cons_of_mem a hx)
      have hga : goodChar a = true := hgood a (by simp)
      by_cases hw : isWsChar a = true
      · rw [List.cons_append, lexGo_looking_ws a _ hw]
        exact ih s1' c s2 hlen' hgood' hbad
      · replace hw : isWsChar a = false := by simpa using hw
        by_cases hp : (a = '(' || a = ')') = true
        · rw [List.cons_append, lexGo_looking_paren a _ hw hp,
            ih s1' c s2 hlen' hgood' hbad]
          rfl
        · replace hp : (a = '(' || a = ')') = false := by simpa using hp
          by_cases ha : isAlphaChar a = true
          · rw [List.cons_append, lexGo_looking_alpha a _ ha, lexGo_inString_run,
              dropWhile_append_mid isAlphaChar s1' c s2 hca]
            simp only [List.isEmpty_eq_true, List.append_eq_nil, List.cons_ne_nil,
              and_false, if_false]
            rw [ih (s1'.dropWhile isAlphaChar) c s2
              (le_trans (length_dropWhile_le _ _) hlen')
              (fun x hx => hgood' x (mem_of_mem_dropWhile _ _ x hx)) hbad]
            rfl
          · by_cases hd : isDigitChar a = true
            · rw [List.cons_append, lexGo_looking_digit a _ hd, lexGo_inNumber_run,
                dropWhile_append_mid isDigitChar s1' c s2 hcd]
              simp only [List.isEmpty_eq_true, List.append_eq_nil, List.cons_ne_nil,
                and_false, if_false]
              rw [ih (s1'.dropWhile isDigitChar) c s2
                (le_trans (length_dropWhile_le _ _) hlen')
                (fun x hx => hgood' x (mem_of_mem_dropWhile _ _ x hx)) hbad]
              rfl
            · exfalso
              replace ha : isAlphaChar a = false := by simpa using ha
              replace hd : isDigitChar a = false := by simpa using hd
              rw [show goodChar a = false by
                simp only [goodChar, Bool.or_eq_false_iff] at hp ⊢
                exact ⟨⟨⟨⟨hw, hp.1⟩, hp.2⟩, ha⟩, hd⟩] at hga
              cases hga

theorem takeWhile_all {p : Char → Bool} (l : List Char) (h : ∀ x ∈ l, p x = true) :
    l.takeWhile p = l := by
  induction l with
  | nil => rfl
  | cons c cs ih =>
    rw [List.takeWhile_cons_of_pos (h c (by simp)), ih (fun x hx => h x (by simp [hx]))]

/-- Bounded-length form of the general trailing-run theorem: a maximal
trailing letter-run or digit-run (nonempty, single class, preceded by
nothing or by a character of a different class) contributes no token at
all — the scan behaves as if the run were replaced by a single space,
which flushes whatever was pending before it but emits nothing for the
run itself. -/
theorem lexGo_run_as_ws_aux (n : Nat) : ∀ (s r : List Char), s.length ≤ n → r ≠ [] →
    (((∀ c ∈ r, isAlphaChar c = true) ∧ (∀ x, s.getLast? = some x → isAlphaChar x = false)) ∨
     ((∀ c ∈ r, isDigitChar c = true) ∧ (∀ x, s.getLast? = some x → isDigitChar x = false))) →
    lexGo .looking (s ++ r) = lexGo .looking (s ++ [' ']) := by
  induction n with
  | zero =>
    intro s r hlen hne hcond
    have hnil : s = [] := List.length_eq_zero.mp (Nat.le_zero.mp hlen)
    subst hnil
    rcases hcond with ⟨hall, _⟩ | ⟨hall, _⟩
    · rw [List.nil_append, List.nil_append, lexGo_looking_all_run r hne (Or.inl hall)]
      rfl
    · rw [List.nil_append, List.nil_append, lexGo_looking_all_run r hne (Or.inr hall)]
      rfl
  | succ n ih =>
    intro s r hlen hne hcond
    cases s with
    | nil =>
      rcases hcond with ⟨hall, _⟩ | ⟨hall, _⟩
      · rw [List.nil_append, List.nil_append, lexGo_looking_all_run r hne (Or.inl hall)]
        rfl
      · rw [List.nil_append, List.nil_append, lexGo_looking_all_run r hne (Or.inr hall)]
        rfl
    | cons c s' =>
      have hlen' : s'.length ≤ n := by
        simp only [List.length_cons] at hlen
        omega
      have htrans : ∀ (p : Char → Bool), (∀ x, (c :: s').getLast? = some x → p x = false) →
          ∀ x, s'.getLast? = some x → p x = false := by
        intro p h x hx
        apply h
        rw [getLast?_cons_ne c s' ?_]
        · exact hx
        · intro hnil
          rw [hnil] at hx
          cases hx
      have hcond' : ((∀ d ∈ r, isAlphaChar d = true) ∧
            (∀ x, s'.getLast? = some x → isAlphaChar x = false)) ∨
          ((∀ d ∈ r, isDigitChar d = true) ∧
            (∀ x, s'.getLast? = some x → isDigitChar x = false)) := by
        rcases hcond with ⟨h1, h2⟩ | ⟨h1, h2⟩
        · exact Or.inl ⟨h1, htrans _ h2⟩
        · exact Or.inr ⟨h1, htrans _ h2⟩
      by_cases hw : isWsChar c = true
      · rw [List.cons_append, List.cons_append, lexGo_looking_ws c _ hw,
          lexGo_looking_ws c _ hw]
        exact ih s' r hlen' hne hcond'
      · replace hw : isWsChar c = false := by simpa using hw
        by_cases hp : (c = '(' || c = ')') = true
        · rw [List.cons_append, List.cons_append, lexGo_looking_paren c _ hw hp,
            lexGo_looking_paren c _ hw hp, ih s' r hlen' hne hcond']
        · replace hp : (c = '(' || c = ')') = false := by simpa using hp
          by_cases ha : isAlphaChar c = true
          · -- the scan is inside a letter run at the start of the prefix
            rw [List.cons_append, List.cons_append, lexGo_looking_alpha c _ ha,
              lexGo_looking_alpha c _ ha, lexGo_inString_run, lexGo_inString_run]
            rcases hcond with ⟨hallr, hlast⟩ | ⟨hallr, hlast⟩
            · -- r is a letter run, so the prefix cannot end in a letter
              have hs' : s' ≠ [] := by
                intro hnil
                subst hnil
                rw [hlast c rfl] at ha
                cases ha
              obtain ⟨x, hx⟩ : ∃ x, s'.getLast? = some x := by
                cases hgl : s'.getLast? with
                | none => exact absurd (List.getLast?_eq_none_iff.mp hgl) hs'
                | some y => exact ⟨y, rfl⟩
              have hxna : isAlphaChar x = false := htrans _ hlast x hx
              have hd : s'.dropWhile isAlphaChar ≠ [] :=
                dropWhile_ne_nil_of_last isAlphaChar s' x hx hxna
              rw [dropWhile_append_of_drop_ne_nil _ _ _ hd,
                dropWhile_append_of_drop_ne_nil _ _ _ hd,
                takeWhile_append_of_drop_ne_nil _ _ _ hd,
                takeWhile_append_of_drop_ne_nil _ _ _ hd]
              have h1 : (s'.dropWhile isAlphaChar ++ r).isEmpty = false := by
                simp [List.isEmpty_iff, hd]
              have h2 : (s'.dropWhile isAlphaChar ++ [' ']).isEmpty = false := by
                simp [List.isEmpty_iff, hd]
              rw [h1, h2]
              simp only [Bool.false_eq_true, if_false]
              rw [ih (s'.dropWhile isAlphaChar) r
                (le_trans (length_dropWhile_le _ _) hlen') hne
                (Or.inl ⟨hallr, fun y hy => htrans _ hlast y
                  (by rw [← getLast?_dropWhile _ _ hd]; exact hy)⟩)]
            · -- r is a digit run; the letter run at the start of the prefix
              -- either ends inside the prefix or absorbs all of it
              rcases hd0 : s'.dropWhile isAlphaChar with _ | ⟨d0, ds0⟩
              · have halls' : ∀ x ∈ s', isAlphaChar x = true :=
                  List.dropWhile_eq_nil_iff.mp hd0
                cases r with
                | nil => exact absurd rfl hne
                | cons d r2 =>
                  have hda : isAlphaChar d = false :=
                    (digit_classes d (hallr d (by simp))).2.2
                  have htk : s'.takeWhile isAlphaChar = s' := takeWhile_all s' halls'
                  have hlentk : (s'.takeWhile isAlphaChar).length = s'.length := by
                    rw [htk]
                  rw [List.dropWhile_append, hd0, List.dropWhile_append, hd0]
                  simp only [List.isEmpty_nil, if_true]
                  rw [List.dropWhile_cons_of_neg (by simp [hda]),
                    List.dropWhile_cons_of_neg (by decide),
                    List.takeWhile_append, List.takeWhile_append, hlentk]
                  simp only [if_true]
                  rw [List.takeWhile_cons_of_neg (by simp [hda]),
                    List.takeWhile_cons_of_neg (by decide)]
                  have hrr : lexGo .looking (d :: r2) = .ok [] :=
                    lexGo_looking_all_run (d :: r2) (by simp) (Or.inr hallr)
                  simp only [List.isEmpty_cons, Bool.false_eq_true, if_false]
                  rw [hrr, show lexGo .looking [' '] = Except.ok [] from rfl]
              · have hd : s'.dropWhile isAlphaChar ≠ [] := by
                  rw [hd0]
                  simp
                rw [dropWhile_append_of_drop_ne_nil _ _ _ hd,
                  dropWhile_append_of_drop_ne_nil _ _ _ hd,
                  takeWhile_append_of_drop_ne_nil _ _ _ hd,
                  takeWhile_append_of_drop_ne_nil _ _ _ hd]
                have h1 : (s'.dropWhile isAlphaChar ++ r).isEmpty = false := by
                  simp [List.isEmpty_iff, hd]
                have h2 : (s'.dropWhile isAlphaChar ++ [' ']).isEmpty = false := by
                  simp [List.isEmpty_iff, hd]
                rw [h1, h2]
                simp only [Bool.false_eq_true, if_false]
                rw [ih (s'.dropWhile isAlphaChar) r
                  (le_trans (length_dropWhile_le _ _) hlen') hne
                  (Or.inr ⟨hallr, fun y hy => htrans _ hlast y
                    (by rw [← getLast?_dropWhile _ _ hd]; exact hy)⟩)]
          · by_cases hdg : isDigitChar c = true
            · rw [List.cons_append, List.cons_append, lexGo_looking_digit c _ hdg,
                lexGo_looking_digit c _ hdg, lexGo_inNumber_run, lexGo_inNumber_run]
              rcases hcond with ⟨hallr, hlast⟩ | ⟨hallr, hlast⟩
              · -- r is a letter run; the digit run at the start of the prefix
                -- either ends inside the prefix or absorbs all of it
                rcases hd0 : s'.dropWhile isDigitChar with _ | ⟨d0, ds0⟩
                · have halls' : ∀ x ∈ s', isDigitChar x = true :=
                    List.dropWhile_eq_nil_iff.mp hd0
                  cases r with
                  | nil => exact absurd rfl hne
                  | cons d r2 =>
                    have hdd : isDigitChar d = false :=
                      (alpha_classes d (hallr d (by simp))).2.2
                    have htk : s'.takeWhile isDigitChar = s' := takeWhile_all s' halls' 
                    have hlentk : (s'.takeWhile isDigitChar).length = s'.length := by
                      rw [htk]
                    rw [List.dropWhile_append, hd0, List.dropWhile_append, hd0]
                    simp only [List.isEmpty_nil, if_true]
                    rw [List.dropWhile_cons_of_neg (by simp [hdd]),
                      List.dropWhile_cons_of_neg (by decide),
                      List.takeWhile_append, List.takeWhile_append, hlentk]
                    simp only [if_true]
                    rw [List.takeWhile_cons_of_neg (by simp [hdd]),
                      List.takeWhile_cons_of_neg (by decide)]
                    have hrr : lexGo .looking (d :: r2) = .ok [] :=
                      lexGo_looking_all_run (d :: r2) (by simp) (Or.inl hallr)
                    simp only [List.isEmpty_cons, Bool.false_eq_true, if_false]
                    rw [hrr, show lexGo .looking [' '] = Except.ok [] from rfl]
                · have hd : s'.dropWhile isDigitChar ≠ [] := by
                    rw [hd0]
                    simp
                  rw [dropWhile_append_of_drop_ne_nil _ _ _ hd,
                    dropWhile_append_of_drop_ne_nil _ _ _ hd,
                    takeWhile_append_of_drop_ne_nil _ _ _ hd,
                    takeWhile_append_of_drop_ne_nil _ _ _ hd]
                  have h1 : (s'.dropWhile isDigitChar ++ r).isEmpty = false := by
                    simp [List.isEmpty_iff, hd]
                  have h2 : (s'.dropWhile isDigitChar ++ [' ']).isEmpty = false := by
                    simp [List.isEmpty_iff, hd]
                  rw [h1, h2]
                  simp only [Bool.false_eq_true, if_false]
                  rw [ih (s'.dropWhile isDigitChar) r
                    (le_trans (length_dropWhile_le _ _) hlen') hne
                    (Or.inl ⟨hallr, fun y hy => htrans _ hlast y
                      (by rw [← getLast?_dropWhile _ _ hd]; exact hy)⟩)]
              · -- r is a digit run, so the prefix cannot end in a digit
                have hs' : s' ≠ [] := by
                  intro hnil
                  subst hnil
                  rw [hlast c rfl] at hdg
                  cases hdg
                obtain ⟨x, hx⟩ : ∃ x, s'.getLast? = some x := by
                  cases hgl : s'.getLast? with
                  | none => exact absurd (List.getLast?_eq_none_iff.mp hgl) hs'
                  | some y => exact ⟨y, rfl⟩
                have hxnd : isDigitChar x = false := htrans _ hlast x hx
                have hd : s'.dropWhile isDigitChar ≠ [] :=
                  dropWhile_ne_nil_of_last isDigitChar s' x hx hxnd
                rw [dropWhile_append_of_drop_ne_nil _ _ _ hd,
                  dropWhile_append_of_drop_ne_nil _ _ _ hd,
                  takeWhile_append_of_drop_ne_nil _ _ _ hd,
                  takeWhile_append_of_drop_ne_nil _ _ _ hd]
                have h1 : (s'.dropWhile isDigitChar ++ r).isEmpty = false := by
                  simp [List.isEmpty_iff, hd]
                have h2 : (s'.dropWhile isDigitChar ++ [' ']).isEmpty = false := by
                  simp [List.isEmpty_iff, hd]
                rw [h1, h2]
                simp only [Bool.false_eq_true, if_false]
                rw [ih (s'.dropWhile isDigitChar) r
                  (le_trans (length_dropWhile_le _ _) hlen') hne
                  (Or.inr ⟨hallr, fun y hy => htrans _ hlast y
                    (by rw [← getLast?_dropWhile _ _ hd]; exact hy)⟩)]
            · replace ha : isAlphaChar c = false := by simpa using ha
              replace hdg : isDigitChar c = false := by simpa using hdg
              have hbad : goodChar c = false := by
                simp only [goodChar, Bool.or_eq_false_iff] at hp ⊢
                exact ⟨⟨⟨⟨hw, hp.1⟩, hp.2⟩, ha⟩, hdg⟩
              rw [List.cons_append, List.cons_append, lexGo_looking_bad c _ hbad,
                lexGo_looking_bad c _ hbad]

/-- Claim C1, counterexample: the input "ab" ends while the tokenizer
is in the `InString` state, yet `Tokenize` returns the empty token
sequence rather than flushing the pending buffer as a final
`Name "ab"` token, which the claim predicts. -/
theorem C1_counterexample :
    Tokenize "ab" = .ok [] ∧ Tokenize "ab" ≠ .ok [Tok.mk .name "ab"] :=
  ⟨rfl, by
    intro h
    rw [show Tokenize "ab" = Except.ok [] from rfl] at h
    simp at h⟩

/-- Claim C1, amended: for every input text that ends while the
tokenizer is in the `InName` or `InNumber` state — every text of the
form `s ++ r` with `r` its maximal trailing letter-run or digit-run
(nonempty, single class, preceded by nothing or by a character of a
different class) — `Tokenize` does NOT emit the pending buffered text
as a final token: the result is exactly that of tokenizing the text
with the trailing run replaced by a single space, which flushes
whatever token was pending before the run but emits nothing for the
run itself (first conjunct); when the prefix does not itself end in a
letter or digit, this further equals tokenizing the prefix alone
(second conjunct). -/
theorem C1_trailing_run_discarded :
    (∀ (s r : List Char), r ≠ [] →
      (((∀ c ∈ r, isAlphaChar c = true) ∧
          (∀ x, s.getLast? = some x → isAlphaChar x = false)) ∨
       ((∀ c ∈ r, isDigitChar c = true) ∧
          (∀ x, s.getLast? = some x → isDigitChar x = false))) →
      Tokenize (String.mk (s ++ r)) = Tokenize (String.mk (s ++ [' ']))) ∧
    (∀ (s r : List Char), r ≠ [] →
      ((∀ c ∈ r, isAlphaChar c = true) ∨ (∀ c ∈ r, isDigitChar c = true)) →
      endsInRun s = false →
      Tokenize (String.mk (s ++ r)) = Tokenize (String.mk s)) := by
  constructor
  · intro s r hne hcond
    show lexGo .looking (s ++ r) = lexGo .looking (s ++ [' '])
    exact lexGo_run_as_ws_aux s.length s r le_rfl hne hcond
  · intro s r hne hrun hs
    show lexGo .looking (s ++ r) = lexGo .looking s
    refine lexGo_append_run_aux s.length s r le_rfl hne hrun ?_
    intro x hx
    simp only [endsInRun, hx] at hs
    simp only [Bool.or_eq_false_iff] at hs
    exact hs

/-- Witness for C1 at concrete inputs: "a1" (whose prefix "a" itself
ends mid-run) tokenizes exactly like "a ", and "(a)bc" tokenizes
exactly like "(a)". -/
theorem C1_witness :
    Tokenize (String.mk ['a', '1']) = Tokenize (String.mk ['a', ' ']) ∧
    Tokenize (String.mk ['(', 'a', ')', 'b', 'c']) = Tokenize (String.mk ['(', 'a', ')']) :=
  ⟨C1_trailing_run_discarded.1 ['a'] ['1'] (by decide)
     (Or.inr ⟨by decide, fun x hx => by
       rw [show (['a'] : List Char).getLast? = some 'a' from rfl] at hx
       injection hx with h
       rw [← h]
       decide⟩),
   C1_trailing_run_discarded.2 ['(', 'a', ')'] ['b', 'c'] (by decide)
     (Or.inl (by decide)) (by decide)⟩

/-- Claim C6, counterexample: "(add 2 2) x" is accepted by the whole
front end (`Tokenize` then `Parse` both succeed), but it yields 5
tokens while the text has 2 parens and 4 maximal runs (add, 2, 2, x):
the trailing run "x" is dropped, so the claimed equality 5 = 6 fails. -/
theorem C6_counterexample :
    SyntacticallyValid "(add 2 2) x" = true ∧
    Except.map List.length (Tokenize "(add 2 2) x") = .ok 5 ∧
    parenCount ("(add 2 2) x".data) + runCount ("(add 2 2) x".data) = 6 := by
  refine ⟨?_, rfl, ?_⟩
  · have ht : Tokenize "(add 2 2) x" = .ok [Tok.mk .paren "(", Tok.mk .name "add",
      Tok.mk .number "2", Tok.mk .number "2", Tok.mk .paren ")"] := rfl
    have hp : Parse [Tok.mk .paren "(", Tok.mk .name "add", Tok.mk .number "2",
        Tok.mk .number "2", Tok.mk .paren ")"] =
        .ok (LNode.program "" [LNode.call "add" [LNode.num 2, LNode.num 2]]) := by
      simp [Parse, parseProgram, ParseCallExpression, parseArgs, stoi]
    rw [SyntacticallyValid, ht]
    simp only [hp]
  · simp +decide [parenCount, runCount]

/-- Claim C6, amended: for every text on which `Tokenize` succeeds (in
particular every syntactically valid program), the number of tokens
equals the number of parens plus the number of maximal letter- and
digit-runs, minus one when the text ends in a letter or digit (that
trailing run is never flushed).  For texts not ending mid-run — all
grammar-derivable programs — the original equality holds. -/
theorem C6_token_count (s : String) (toks : List Tok) (h : Tokenize s = .ok toks) :
    toks.length + (if endsInRun s.data then 1 else 0) =
      parenCount s.data + runCount s.data :=
  lexGo_count_aux s.data.length s.data toks le_rfl h

/-- Witness for C6 at "(add 2 2)": 5 tokens, 2 parens, 3 runs, no
trailing run. -/
theorem C6_witness :
    Tokenize "(add 2 2)" = .ok [Tok.mk .paren "(", Tok.mk .name "add", Tok.mk .number "2",
      Tok.mk .number "2", Tok.mk .paren ")"] ∧
    ([Tok.mk .paren "(", Tok.mk .name "add", Tok.mk .number "2",
      Tok.mk .number "2", Tok.mk .paren ")"].length +
        (if endsInRun "(add 2 2)".data then 1 else 0) =
      parenCount "(add 2 2)".data + runCount "(add 2 2)".data) :=
  ⟨rfl, C6_token_count "(add 2 2)" _ rfl⟩

/-- Claim C7: `Tokenize` fails — always with the single lexical error
`unexpectedCharacter` ("Unexpected character"), the only constructor of
`LexErr` — if and only if the text contains a character that is none of
space, tab, newline, a paren, a letter or a digit; and the scan aborts
at the first such character regardless of what follows, returning no
token output (the `Except.error` result carries no tokens). -/
theorem C7_lex_error_characterization :
    (∀ s : String, Tokenize s = .error .unexpectedCharacter ↔
      ∃ c ∈ s.data, goodChar c = false) ∧
    (∀ (s1 : List Char) (c : Char) (s2 : List Char), (∀ a ∈ s1, goodChar a = true) →
      goodChar c = false →
      Tokenize (String.mk (s1 ++ c :: s2)) = .error .unexpectedCharacter) :=
  ⟨fun s => lexGo_error_iff_aux s.data.length s.data le_rfl,
   fun s1 c s2 hg hb => lexGo_first_bad_aux s1.length s1 c s2 le_rfl hg hb⟩

/-- Witness for C7: the character @ aborts the scan both mid-text and
alone. -/
theorem C7_witness :
    goodChar '@' = false ∧
    Tokenize (String.mk ['(', 'a', '@', ')']) = .error .unexpectedCharacter ∧
    Tokenize "@" = .error .unexpectedCharacter :=
  ⟨by decide,
   C7_lex_error_characterization.2 ['(', 'a'] '@' [')'] (by decide) (by decide),
   (C7_lex_error_characterization.1 "@").mpr ⟨'@', by decide, by decide⟩⟩

/-- Claim C10: any input of only whitespace (the empty string included)
tokenizes to the empty token sequence, and `Parse` of the empty
sequence succeeds with a `Program` node whose body is empty (and whose
name is the default empty string). -/
theorem C10_whitespace_empty (s : String) (h : ∀ c ∈ s.data, isWsChar c = true) :
    Tokenize s = .ok [] ∧ Parse [] = .ok (LNode.program "" []) := by
  constructor
  · show lexGo .looking s.data = .ok []
    have haux : ∀ l : List Char, (∀ c ∈ l, isWsChar c = true) → lexGo .looking l = .ok [] := by
      intro l
      induction l with
      | nil => intro _; rfl
      | cons c cs ih =>
        intro hl
        rw [lexGo_looking_ws c cs (hl c (by simp))]
        exact ih (fun x hx => hl x (List.mem_cons_of_mem c hx))
    exact haux s.data h
  · show parseProgram [] [] = .ok (LNode.program "" [])
    exact parseProgram_nil []

/-- Witness for C10 at the inputs "" and " \t\n". -/
theorem C10_witness :
    (Tokenize "" = .ok [] ∧ Parse [] = .ok (LNode.program "" [])) ∧
    (Tokenize " \t\n" = .ok [] ∧ Parse [] = .ok (LNode.program "" [])) :=
  ⟨C10_whitespace_empty "" (by decide), C10_whitespace_empty " \t\n" (by decide)⟩

/-- Claim C2 (code bug): on the token sequence consisting of the single
token `(`, the parser reaches `ParseCallExpression` with the cursor
already at the end: the source then dereferences the end iterator
(undefined behaviour) instead of throwing `ParseError("missing \')\' to
end call expression")`.  In the model that control point is the
distinct outcome `derefEnd`, not `missingParen`. -/
theorem C2_end_iterator_deref :
    Parse [Tok.mk .paren "("] = .error .derefEnd ∧
    Parse [Tok.mk .paren "("] ≠ .error .missingParen := by
  have h : Parse [Tok.mk .paren "("] = .error .derefEnd := by
    show parseProgram [] [Tok.mk .paren "("] = .error .derefEnd
    rw [parseProgram_cons]
    simp [ParseCallExpressionT_nil]
  exact ⟨h, by rw [h]; simp⟩

/-- Size-bounded mutual induction: consuming the tokens of complete
argument blocks appends exactly their parsed nodes to the accumulator
and leaves the loop at the following token. -/
theorem parseArgsT_blocks_aux (k : Nat) :
    (∀ a : ArgToks, sizeOf a ≤ k → ∀ (name : String) (acc : List LNode) (tail : List Tok),
      parseArgsT name acc (argToksFlat a ++ tail) =
        parseArgsT name (acc ++ [argNode a]) tail) ∧
    (∀ as : List ArgToks, sizeOf as ≤ k → ∀ (name : String) (acc : List LNode)
      (tail : List Tok),
      parseArgsT name acc (argToksFlatList as ++ tail) =
        parseArgsT name (acc ++ argNodeList as) tail) := by
  induction k with
  | zero =>
    constructor
    · intro a ha
      exfalso
      cases a <;> simp at ha
    · intro as ha name acc tail
      cases as with
      | nil => simp [argToksFlatList, argNodeList]
      | cons x xs => simp at ha
  | succ k ih =>
    constructor
    · intro a ha name acc tail
      cases a with
      | numTok s =>
        rw [argToksFlat, argNode]
        simp only [List.cons_append, List.nil_append]
        exact parseArgsT_number name acc s tail
      | callTok m as =>
        rw [argToksFlat, argNode]
        simp only [List.cons_append, List.append_assoc, List.cons_append, List.nil_append]
        rw [parseArgsT_open name acc "(" (by simp) _]
        rw [ParseCallExpressionT_cons]
        simp only [if_true]
        have has : sizeOf as ≤ k := by
          simp at ha
          omega
        rw [ih.2 as has m [] (Tok.mk .paren ")" :: tail)]
        rw [parseArgsT_close]
        simp only [List.nil_append]
    · intro as ha name acc tail
      cases as with
      | nil => simp [argToksFlatList, argNodeList]
      | cons x xs =>
        rw [argToksFlatList, argNodeList]
        have hx : sizeOf x ≤ k := by
          simp at ha
          omega
        have hxs : sizeOf xs ≤ k := by
          simp at ha
          omega
        rw [List.append_assoc, ih.1 x hx name acc _, ih.2 xs hxs name (acc ++ [argNode x]) tail,
          List.append_assoc]
        simp

/-- Claim C8: whenever a `Name` token appears in argument position —
after the callee name and any number of complete arguments, not as the
callee of a nested call — `Parse` fails with `ParseError("unexpected
name in argument list")`, whatever tokens follow. -/
theorem C8_name_in_argument_position (callee : String) (args : List ArgToks)
    (n : String) (rest : List Tok) :
    Parse (Tok.mk .paren "(" :: Tok.mk .name callee ::
        (argToksFlatList args ++ Tok.mk .name n :: rest)) = .error .unexpectedName := by
  show parseProgram [] _ = _
  rw [parseProgram_cons]
  simp only [if_true]
  rw [ParseCallExpressionT_cons]
  simp only [if_true]
  rw [(parseArgsT_blocks_aux (sizeOf args)).2 args le_rfl callee [] (Tok.mk .name n :: rest),
    parseArgsT_name]
  simp

theorem cellAt_append_left (cells m : List (List CRef)) (k : Nat) (h : k < cells.length) :
    cellAt (cells ++ m) k = cellAt cells k := by
  induction cells generalizing k with
  | nil => simp at h
  | cons x xs ih =>
    cases k with
    | zero => rfl
    | succ k =>
      simp only [List.length_cons] at h
      exact ih k (by omega)

theorem cellAt_append_new (cells : List (List CRef)) (x : List CRef) :
    cellAt (cells ++ [x]) cells.length = x := by
  induction cells with
  | nil => rfl
  | cons y ys ih => exact ih

theorem cellAt_set_self (cells : List (List CRef)) (k : Nat) (v : List CRef)
    (h : k < cells.length) : cellAt (cells.set k v) k = v := by
  induction cells generalizing k with
  | nil => simp at h
  | cons x xs ih =>
    cases k with
    | zero => rfl
    | succ k =>
      simp only [List.length_cons] at h
      exact ih k (by omega)

theorem cellAt_set_ne (cells : List (List CRef)) (k j : Nat) (v : List CRef)
    (h : j ≠ k) : cellAt (cells.set k v) j = cellAt cells j := by
  induction cells generalizing k j with
  | nil => rfl
  | cons x xs ih =>
    cases k with
    | zero =>
      cases j with
      | zero => exact absurd rfl h
      | succ j => rfl
    | succ k =>
      cases j with
      | zero => rfl
      | succ j => exact ih k j (by omega)

theorem cellAt_out_of_range (cells : List (List CRef)) (k : Nat)
    (h : cells.length ≤ k) : cellAt cells k = [] := by
  induction cells generalizing k with
  | nil => cases k <;> rfl
  | cons x xs ih =>
    cases k with
    | zero => simp at h
    | succ k =>
      simp only [List.length_cons] at h
      exact ih k (by omega)

theorem ctxFind_cons_self (p : List Nat) (v : Nat) (ctx : List (List Nat × Nat)) :
    ctxFind ((p, v) :: ctx) p = some v := by
  simp [ctxFind]

theorem ctxFind_cons_ne (q : List Nat) (v : Nat) (ctx : List (List Nat × Nat))
    (p : List Nat) (h : q ≠ p) : ctxFind ((q, v) :: ctx) p = ctxFind ctx p := by
  simp [ctxFind, h]

theorem ctxFind_append_longer (E ctx : List (List Nat × Nat)) (p : List Nat)
    (h : ∀ e ∈ E, p.length < e.1.length) : ctxFind (E ++ ctx) p = ctxFind ctx p := by
  induction E with
  | nil => rfl
  | cons e es ih =>
    cases e with
    | mk q v =>
      rw [List.cons_append, ctxFind_cons_ne q v _ p]
      · exact ih (fun x hx => h x (List.mem_cons_of_mem _ hx))
      · intro hqp
        have := h (q, v) (by simp)
        rw [hqp] at this
        simp at this

theorem cppOfArgs_eq_map (xs : List LNode) : cppOfArgs xs = xs.map cppOfArg := by
  induction xs with
  | nil => rfl
  | cons x xs ih => rw [cppOfArgs, ih, List.map_cons]

theorem countL_pos (t : LNode) : 1 ≤ countL t := by
  cases t <;> rw [countL] <;> omega

theorem countLs_cons (x : LNode) (xs : List LNode) :
    countLs (x :: xs) = countL x + countLs xs := by
  rw [countLs]

theorem targetOf_num (v : Int) (b : Bool) : targetOf (.num v) b = CNode.numLit v := by
  cases b <;> simp [targetOf, cppOfArg, cppOfTop]

theorem simA_num (v : Int) : SimA (.num v) := by
  intro s pp path pIsCall k hfind hk hprog _hlen
  obtain ⟨pc, hpc⟩ : ∃ pc, s.programCell = some pc := by
    cases h : s.programCell
    · rw [h] at hprog
      cases hprog
    · exact ⟨_, rfl⟩
  refine ⟨⟨s.cells.set k (s.cells.getD k [] ++ [CRef.numLit v]), s.ctx, s.programCell⟩,
    [], CRef.numLit v, ?_, rfl, rfl, by simp, ?_, ?_, ?_, ?_⟩
  · rw [transformVisit, hpc, hfind]
  · simp [List.length_set]
  · intro j _ hjk
    exact cellAt_set_ne s.cells k j _ hjk
  · exact cellAt_set_self s.cells k _ hk
  · intro cells2 _ _ k2 _
    rw [reifyRef, targetOf_num]

theorem targetOf_call_true (nm : String) (ps : List LNode) :
    targetOf (.call nm ps) true = CNode.callExpr (CNode.ident nm) (ps.map cppOfArg) := by
  simp [targetOf, cppOfArg, cppOfArgs_eq_map]

theorem targetOf_call_false (nm : String) (ps : List LNode) :
    targetOf (.call nm ps) false =
      CNode.exprStmt (CNode.callExpr (CNode.ident nm) (ps.map cppOfArg)) := by
  simp [targetOf, cppOfTop, cppOfArgs_eq_map]

/-- Main simulation induction (on the node count): every well-formed
argument subtree and child list satisfies its simulation statement. -/
theorem transform_sim (n : Nat) :
    (∀ t, countL t ≤ n → WFArg t = true → SimA t) ∧
    (∀ ts, countLs ts ≤ n → WFArgs ts = true → SimL ts) := by
  induction n using Nat.strong_induction_on with
  | _ n ih =>
    have hA : ∀ t, countL t ≤ n → WFArg t = true → SimA t := by
      intro t hcnt hwf
      cases t with
      | program nm body =>
        rw [WFArg] at hwf
        cases hwf
      | num v => exact simA_num v
      | call nm params =>
        rw [WFArg] at hwf
        rw [countL] at hcnt
        have hcp : 1 ≤ countL (LNode.call nm params) := countL_pos _
        rw [countL] at hcp
        have hlt : countLs params < n := by omega
        have hSimL : SimL params := (ih (countLs params) hlt).2 params le_rfl hwf
        intro s pp path pIsCall k hfind hk hprog hlen
        obtain ⟨pc, hpc⟩ : ∃ pc, s.programCell = some pc := by
          cases h : s.programCell
          · rw [h] at hprog
            cases hprog
          · exact ⟨_, rfl⟩
        have hppne : path ≠ pp := by
          intro heq
          rw [heq] at hlen
          omega
        have hstep : transformVisit (.call nm params) (some (pp, pIsCall)) path s =
            transformVisitList params (some (path, true)) path 0
              ⟨((s.cells ++ [[]]).set k ((s.cells ++ [[]]).getD k [] ++
                  [if pIsCall then CRef.callExpr nm s.cells.length
                   else CRef.exprStmt nm s.cells.length])),
               (path, s.cells.length) :: s.ctx, s.programCell⟩ := by
          rw [transformVisit, hpc, ctxFind_cons_ne path s.cells.length s.ctx pp hppne, hfind]
        have h1find : ctxFind ((path, s.cells.length) :: s.ctx) path = some s.cells.length :=
          ctxFind_cons_self path s.cells.length s.ctx
        have hlen1 : ((s.cells ++ [[]]).set k ((s.cells ++ [[]]).getD k [] ++
            [if pIsCall then CRef.callExpr nm s.cells.length
             else CRef.exprStmt nm s.cells.length])).length = s.cells.length + 1 := by
          simp [List.length_set]
        obtain ⟨s2, E1, rs, hok, hpc2, hctx2, hkeys2, hlen2, hframe2, hcell2, hstab2⟩ :=
          hSimL ⟨((s.cells ++ [[]]).set k ((s.cells ++ [[]]).getD k [] ++
              [if pIsCall then CRef.callExpr nm s.cells.length
               else CRef.exprStmt nm s.cells.length])),
             (path, s.cells.length) :: s.ctx, s.programCell⟩
            path true 0 s.cells.length h1find (by rw [hlen1]; omega) (by simpa using hprog)
        rw [hlen1] at hlen2
        have hcell1k : cellAt ((s.cells ++ [[]]).set k ((s.cells ++ [[]]).getD k [] ++
            [if pIsCall then CRef.callExpr nm s.cells.length
             else CRef.exprStmt nm s.cells.length])) k =
            cellAt s.cells k ++
              [if pIsCall then CRef.callExpr nm s.cells.length
               else CRef.exprStmt nm s.cells.length] := by
          rw [cellAt_set_self _ k _ (by simp [List.length_append]; omega)]
          show cellAt (s.cells ++ [[]]) k ++ _ = _
          rw [cellAt_append_left s.cells [[]] k hk]
        have hcell1n : cellAt ((s.cells ++ [[]]).set k ((s.cells ++ [[]]).getD k [] ++
            [if pIsCall then CRef.callExpr nm s.cells.length
             else CRef.exprStmt nm s.cells.length])) s.cells.length = [] := by
          rw [cellAt_set_ne _ k s.cells.length _ (by omega), cellAt_append_new]
        refine ⟨s2, E1 ++ [(path, s.cells.length)],
          (if pIsCall then CRef.callExpr nm s.cells.length
           else CRef.exprStmt nm s.cells.length), ?_, ?_, ?_, ?_, ?_, ?_, ?_, ?_⟩
        · rw [hstep]
          exact hok
        · rw [hpc2]
        · rw [hctx2, List.append_cons]
        · intro e he
          rcases List.mem_append.mp he with hE | hsing
          · exact le_of_lt (hkeys2 e hE)
          · rw [List.mem_singleton.mp hsing]
        · omega
        · intro j hj hjk
          rw [hframe2 j (by rw [hlen1]; omega) (by omega),
            cellAt_set_ne _ k j _ hjk, cellAt_append_left s.cells [[]] j hj]
        · rw [hframe2 k (by rw [hlen1]; omega) (by omega), hcell1k]
        · intro cells2 hclen hagree k2 hk2
          have hn0lt : s.cells.length < cells2.length := by omega
          have hcells2n : cellAt cells2 s.cells.length = rs := by
            rw [hagree s.cells.length le_rfl (by omega), hcell2, hcell1n, List.nil_append]
          have hmap : rs.map (reifyRef cells2 s.cells.length) =
              params.map (fun t => targetOf t true) := by
            refine hstab2 cells2 (by omega) ?_ s.cells.length (by rw [hlen1]; omega)
            intro j hj1 hj2
            rw [hlen1] at hj1
            exact hagree j (by omega) hj2
          have hmap2 : params.map (fun t => targetOf t true) = params.map cppOfArg := by
            refine List.map_congr_left ?_
            intro t _
            rw [targetOf]
            simp
          cases pIsCall with
          | false =>
            simp only [Bool.false_eq_true, if_false]
            rw [reifyRef, dif_pos ⟨hk2, hn0lt⟩, targetOf_call_false, reifyCell]
            show CNode.exprStmt (CNode.callExpr (CNode.ident nm)
              ((cellAt cells2 s.cells.length).map (reifyRef cells2 s.cells.length))) = _
            rw [hcells2n, hmap, hmap2]
          | true =>
            simp only [if_true]
            rw [reifyRef, dif_pos ⟨hk2, hn0lt⟩, targetOf_call_true, reifyCell]
            show CNode.callExpr (CNode.ident nm)
              ((cellAt cells2 s.cells.length).map (reifyRef cells2 s.cells.length)) = _
            rw [hcells2n, hmap, hmap2]
    refine ⟨hA, ?_⟩
    intro ts hcnt hwf
    cases ts with
    | nil =>
      intro s p isC i c hfind hc hprog
      refine ⟨s, [], [], ?_, rfl, rfl, by simp, le_rfl, fun j _ _ => rfl, by simp, ?_⟩
      · rw [transformVisitList]
      · intro cells2 _ _ k2 _
        simp
    | cons x xs =>
      rw [countLs_cons] at hcnt
      rw [WFArgs, Bool.and_eq_true] at hwf
      have hXA : SimA x := hA x (by have := countL_pos x; omega) hwf.1
      have hxs : countLs xs < n := by have := countL_pos x; omega
      have hXL : SimL xs := (ih (countLs xs) hxs).2 xs le_rfl hwf.2
      intro s p isC i c hfind hc hprog
      obtain ⟨s2, E1, r, hok1, hpc1, hctx1, hkeys1, hlen1, hframe1, hcell1, hstab1⟩ :=
        hXA s p (p ++ [i]) isC c hfind hc hprog (by simp)
      have hfind2 : ctxFind s2.ctx p = some c := by
        rw [hctx1, ctxFind_append_longer E1 s.ctx p ?_, hfind]
        intro e he
        have := hkeys1 e he
        simp at this
        omega
      obtain ⟨s3, E2, rs, hok2, hpc2, hctx2, hkeys2, hlen2, hframe2, hcell2, hstab2⟩ :=
        hXL s2 p isC (i + 1) c hfind2 (by omega) (by rw [hpc1]; exact hprog)
      refine ⟨s3, E2 ++ E1, r :: rs, ?_, ?_, ?_, ?_, ?_, ?_, ?_, ?_⟩
      · rw [transformVisitList, hok1]
        exact hok2
      · rw [hpc2, hpc1]
      · rw [hctx2, hctx1, List.append_assoc]
      · intro e he
        rcases List.mem_append.mp he with h2 | h1
        · exact hkeys2 e h2
        · have := hkeys1 e h1
          simp at this
          omega
      · omega
      · intro j hj hjc
        rw [hframe2 j (by omega) hjc, hframe1 j hj hjc]
      · rw [hcell2, hcell1, List.append_assoc, List.singleton_append]
      · intro cells2 hclen hagree k2 hk2
        rw [List.map_cons, List.map_cons]
        have hr : reifyRef cells2 k2 r = targetOf x isC := by
          refine hstab1 cells2 (by omega) ?_ k2 hk2
          intro j hj1 hj2
          rw [hagree j hj1 (by omega), hframe2 j (by omega) (by omega)]
        have hrs : rs.map (reifyRef cells2 k2) = xs.map (fun t => targetOf t isC) := by
          refine hstab2 cells2 hclen ?_ k2 (by omega)
          intro j hj1 hj2
          exact hagree j (by omega) hj2
        rw [hr, hrs]

theorem WFTop_imp_WFArg (x : LNode) (h : WFTop x = true) : WFArg x = true := by
  cases x with
  | program nm body => simp [WFTop] at h
  | call nm ps => rw [WFArg]; simpa [WFTop] using h
  | num v => rw [WFArg]

theorem WFArgs_of_all_WFTop (body : List LNode) (h : body.all WFTop = true) :
    WFArgs body = true := by
  induction body with
  | nil => rw [WFArgs]
  | cons x xs ih =>
    rw [List.all_cons, Bool.and_eq_true] at h
    rw [WFArgs, Bool.and_eq_true]
    exact ⟨WFTop_imp_WFArg x h.1, ih h.2⟩

theorem targetOf_false_eq_cppOfTop (t : LNode) : targetOf t false = cppOfTop t := by
  rw [targetOf]
  simp

/-- On every well-formed program tree (all parser outputs), the
transformer succeeds and builds exactly the structural transform: the
heap-and-context traversal is equivalent to the recursive description
`cppOfProgram`. -/
theorem transform_ok (t : LNode) (hwf : WFProgram t = true) :
    TransformLispAstToCppAst t = .ok (cppOfProgram t) := by
  cases t with
  | call nm ps => simp [WFProgram] at hwf
  | num v => simp [WFProgram] at hwf
  | program nm body =>
    rw [WFProgram] at hwf
    have hwfargs : WFArgs body = true := WFArgs_of_all_WFTop body hwf
    have hSimL : SimL body := (transform_sim (countLs body)).2 body le_rfl hwfargs
    have hstep : transformVisit (.program nm body) none [] ⟨[], [], none⟩ =
        transformVisitList body (some ([], false)) [] 0 ⟨[[]], [([], 0)], some 0⟩ := by
      rw [transformVisit]
      rfl
    obtain ⟨s2, E, rs, hok, hpc2, _hctx2, _hkeys2, hlen2, _hframe2, hcell2, hstab2⟩ :=
      hSimL ⟨[[]], [([], 0)], some 0⟩ [] false 0 0 (ctxFind_cons_self [] 0 []) (by simp) rfl
    rw [TransformLispAstToCppAst, hstep, hok]
    show (match s2.programCell with
      | none => Except.error IErr.noProgram
      | some pc => Except.ok (CNode.program "" (reifyCell s2.cells pc))) = _
    rw [show s2.programCell = some 0 from hpc2]
    show Except.ok (CNode.program "" (reifyCell s2.cells 0)) = _
    rw [reifyCell]
    show Except.ok (CNode.program "" ((cellAt s2.cells 0).map (reifyRef s2.cells 0))) = _
    rw [hcell2]
    show Except.ok (CNode.program "" (rs.map (reifyRef s2.cells 0))) = _
    rw [hstab2 s2.cells le_rfl (fun j _ _ => rfl) 0 (by simp)]
    rw [cppOfProgram,
      List.map_congr_left (fun x _ => targetOf_false_eq_cppOfTop x)]

theorem ParseCallExpressionT_length (toks : List Tok) (node : LNode) (l : List Tok)
    (h : ParseCallExpressionT toks = .ok (node, l)) : l.length ≤ toks.length := by
  rw [ParseCallExpressionT] at h
  rcases hp : ParseCallExpression toks with e | ⟨n2, ⟨l2, hb⟩⟩ <;> rw [hp] at h
  · cases h
  · simp only [Except.map, Except.ok.injEq, Prod.mk.injEq] at h
    rw [← h.2]
    exact hb

theorem WFArgs_append_one (acc : List LNode) (x : LNode) (hacc : WFArgs acc = true)
    (hx : WFArg x = true) : WFArgs (acc ++ [x]) = true := by
  induction acc with
  | nil => rw [List.nil_append, WFArgs, WFArgs, Bool.and_eq_true]; exact ⟨hx, rfl⟩
  | cons a as ih =>
    rw [WFArgs, Bool.and_eq_true] at hacc
    rw [List.cons_append, WFArgs, Bool.and_eq_true]
    exact ⟨hacc.1, ih hacc.2⟩

/-- Bounded-length induction: on success the parser only ever returns
well-formed call nodes (in particular it never reconstructs a
`ProgramNode` below the root, and all parameters are calls or
numbers). -/
theorem parse_wf_aux (n : Nat) :
    (∀ (toks : List Tok) (node : LNode) (l : List Tok), toks.length ≤ n →
      ParseCallExpressionT toks = .ok (node, l) → WFTop node = true) ∧
    (∀ (name : String) (acc : List LNode) (toks : List Tok) (node : LNode) (l : List Tok),
      toks.length ≤ n → WFArgs acc = true →
      parseArgsT name acc toks = .ok (node, l) → WFTop node = true) := by
  induction n with
  | zero =>
    constructor
    · intro toks node l hlen hok
      rw [List.length_eq_zero.mp (Nat.le_zero.mp hlen), ParseCallExpressionT_nil] at hok
      cases hok
    · intro name acc toks node l hlen hacc hok
      rw [List.length_eq_zero.mp (Nat.le_zero.mp hlen), parseArgsT_nil] at hok
      cases hok
  | succ n ih =>
    have hPCE : ∀ (toks : List Tok) (node : LNode) (l : List Tok), toks.length ≤ n + 1 →
        ParseCallExpressionT toks = .ok (node, l) → WFTop node = true := by
      intro toks node l hlen hok
      cases toks with
      | nil =>
        rw [ParseCallExpressionT_nil] at hok
        cases hok
      | cons t rest =>
        rw [ParseCallExpressionT_cons] at hok
        by_cases ht : t.type = TokType.name
        · rw [if_pos ht] at hok
          exact ih.2 t.value [] rest node l (by simp at hlen ⊢; omega) rfl hok
        · rw [if_neg ht] at hok
          cases hok
    refine ⟨hPCE, ?_⟩
    intro name acc toks node l hlen hacc hok
    cases toks with
    | nil =>
      rw [parseArgsT_nil] at hok
      cases hok
    | cons t rest =>
      have hlen' : rest.length ≤ n := by
        simp only [List.length_cons] at hlen
        omega
      cases t with
      | mk ty v =>
        cases ty with
        | name =>
          rw [parseArgsT_name] at hok
          cases hok
        | number =>
          rw [parseArgsT_number] at hok
          exact ih.2 name (acc ++ [LNode.num (stoi v)]) rest node l hlen'
            (WFArgs_append_one acc _ hacc (by rw [WFArg])) hok
        | paren =>
          by_cases hv : v = ")"
          · rw [hv, parseArgsT_close] at hok
            simp only [Except.ok.injEq, Prod.mk.injEq] at hok
            rw [← hok.1, WFTop]
            exact hacc
          · rw [parseArgsT_open name acc v hv rest] at hok
            rcases hrec : ParseCallExpressionT rest with e | ⟨arg, l1⟩ <;> rw [hrec] at hok
            · cases hok
            · have harg : WFTop arg = true := hPCE rest arg l1 (by omega) hrec
              have hl1 : l1.length ≤ rest.length :=
                ParseCallExpressionT_length rest arg l1 hrec
              exact ih.2 name (acc ++ [arg]) l1 node l (by omega)
                (WFArgs_append_one acc arg hacc (WFTop_imp_WFArg arg harg)) hok

theorem parseProgram_wf_aux (n : Nat) : ∀ (toks : List Tok) (acc : List LNode) (t : LNode),
    toks.length ≤ n → acc.all WFTop = true → parseProgram acc toks = .ok t →
    WFProgram t = true := by
  induction n with
  | zero =>
    intro toks acc t hlen hacc hok
    rw [List.length_eq_zero.mp (Nat.le_zero.mp hlen), parseProgram_nil] at hok
    simp only [Except.ok.injEq] at hok
    rw [← hok, WFProgram]
    exact hacc
  | succ n ih =>
    intro toks acc t hlen hacc hok
    cases toks with
    | nil =>
      rw [parseProgram_nil] at hok
      simp only [Except.ok.injEq] at hok
      rw [← hok, WFProgram]
      exact hacc
    | cons tk rest =>
      rw [parseProgram_cons] at hok
      by_cases hc : tk.type = TokType.paren ∧ tk.value = "("
      · rw [if_pos hc] at hok
        rcases hrec : ParseCallExpressionT rest with e | ⟨node, l⟩ <;> rw [hrec] at hok
        · cases hok
        · have hnode : WFTop node = true :=
            (parse_wf_aux rest.length).1 rest node l le_rfl hrec
          have hl : l.length ≤ rest.length := ParseCallExpressionT_length rest node l hrec
          refine ih l (acc ++ [node]) t (by simp at hlen; omega) ?_ hok
          rw [List.all_append]
          simp only [hacc, List.all_cons, hnode, List.all_nil, Bool.and_self]
      · rw [if_neg hc] at hok
        cases hok

/-- Every tree `Parse` returns is well-formed. -/
theorem Parse_wf (toks : List Tok) (t : LNode) (h : Parse toks = .ok t) :
    WFProgram t = true :=
  parseProgram_wf_aux toks.length toks [] t le_rfl rfl h

/-- Size-bounded induction: the structural transform of a well-formed
argument never contains an `ExpressionStatement`. -/
theorem noStmt_cppOfArg_aux (n : Nat) :
    (∀ t, countL t ≤ n → WFArg t = true → noStmtInside (cppOfArg t) = true) ∧
    (∀ ts, countLs ts ≤ n → WFArgs ts = true →
      noStmtInsideList (ts.map cppOfArg) = true) := by
  induction n using Nat.strong_induction_on with
  | _ n ih =>
    have hA : ∀ t, countL t ≤ n → WFArg t = true → noStmtInside (cppOfArg t) = true := by
      intro t hcnt hwf
      cases t with
      | program nm body => simp [WFArg] at hwf
      | num v => rw [cppOfArg, noStmtInside]
      | call nm ps =>
        rw [WFArg] at hwf
        rw [countL] at hcnt
        have hcp : 1 ≤ countL (LNode.call nm ps) := countL_pos _
        rw [countL] at hcp
        rw [cppOfArg, cppOfArgs_eq_map, noStmtInside, Bool.and_eq_true]
        exact ⟨by rw [noStmtInside],
          (ih (countLs ps) (by omega)).2 ps le_rfl hwf⟩
    refine ⟨hA, ?_⟩
    intro ts hcnt hwf
    cases ts with
    | nil => rw [List.map_nil, noStmtInsideList]
    | cons x xs =>
      rw [countLs_cons] at hcnt
      rw [WFArgs, Bool.and_eq_true] at hwf
      rw [List.map_cons, noStmtInsideList, Bool.and_eq_true]
      have := countL_pos x
      exact ⟨hA x (by omega) hwf.1, (ih (countLs xs) (by omega)).2 xs le_rfl hwf.2⟩

/-- The structural transform of a parseable tree wraps exactly the
top-level calls: each body element is an `ExpressionStatement`, and
none occurs below. -/
theorem stmtWrapOnlyTop_cppOfProgram (t : LNode) (hwf : WFProgram t = true) :
    stmtWrapOnlyTop (cppOfProgram t) = true := by
  cases t with
  | call nm ps => simp [WFProgram] at hwf
  | num v => simp [WFProgram] at hwf
  | program nm body =>
    rw [WFProgram] at hwf
    rw [cppOfProgram, stmtWrapOnlyTop, List.all_eq_true]
    intro y hy
    obtain ⟨x, hx, rfl⟩ := List.mem_map.mp hy
    have hxtop : WFTop x = true := by
      rw [List.all_eq_true] at hwf
      exact hwf x hx
    cases x with
    | program nm2 body2 => simp [WFTop] at hxtop
    | num v => simp [WFTop] at hxtop
    | call nm2 ps2 =>
      rw [WFTop] at hxtop
      rw [cppOfTop]
      rw [Bool.and_eq_true]
      constructor
      · rw [noStmtInside]
      · rw [cppOfArgs_eq_map]
        exact (noStmt_cppOfArg_aux (countLs ps2)).2 ps2 le_rfl hxtop

/-- Size-bounded induction for node counting: the structural transform
of a well-formed argument has one target node per source node plus one
`IdentifierNode` per call expression. -/
theorem count_cpp_aux (n : Nat) :
    (∀ t, countL t ≤ n → WFArg t = true →
      countC (cppOfArg t) = countL t + callCountL t) ∧
    (∀ ts, countLs ts ≤ n → WFArgs ts = true →
      countCs (ts.map cppOfArg) = countLs ts + callCountLs ts) := by
  induction n using Nat.strong_induction_on with
  | _ n ih =>
    have hA : ∀ t, countL t ≤ n → WFArg t = true →
        countC (cppOfArg t) = countL t + callCountL t := by
      intro t hcnt hwf
      cases t with
      | program nm body => simp [WFArg] at hwf
      | num v => rw [cppOfArg, countC, countL, callCountL]
      | call nm ps =>
        rw [WFArg] at hwf
        rw [countL] at hcnt
        have hcp : 1 ≤ countL (LNode.call nm ps) := countL_pos _
        rw [countL] at hcp
        rw [cppOfArg, cppOfArgs_eq_map, countC, countC, countL, callCountL,
          (ih (countLs ps) (by omega)).2 ps le_rfl hwf]
        omega
    refine ⟨hA, ?_⟩
    intro ts hcnt hwf
    cases ts with
    | nil => rw [List.map_nil, countCs, countLs, callCountLs]
    | cons x xs =>
      rw [countLs_cons] at hcnt
      rw [WFArgs, Bool.and_eq_true] at hwf
      have := countL_pos x
      rw [List.map_cons, countCs, countLs, callCountLs,
        hA x (by omega) hwf.1, (ih (countLs xs) (by omega)).2 xs le_rfl hwf.2]
      omega

/-- Node count of the structural transform of a well-formed top-level
body: one per source node, plus one `ExpressionStatement` per element,
plus one `Identifier` per call. -/
theorem count_cpp_tops (body : List LNode) (hwf : body.all WFTop = true) :
    countCs (body.map cppOfTop) = countLs body + body.length + callCountLs body := by
  induction body with
  | nil => rw [List.map_nil, countCs, countLs, callCountLs, List.length_nil]
  | cons x xs ih =>
    rw [List.all_cons, Bool.and_eq_true] at hwf
    have hxtop := hwf.1
    rw [List.map_cons, countCs, countLs, callCountLs, List.length_cons, ih hwf.2]
    cases x with
    | program nm b2 => simp [WFTop] at hxtop
    | num v => simp [WFTop] at hxtop
    | call nm ps =>
      rw [WFTop] at hxtop
      rw [cppOfTop, countC, countC, countC, cppOfArgs_eq_map,
        (count_cpp_aux (countLs ps)).2 ps le_rfl hxtop, countL, callCountL]
      omega

/-- Node count of the whole structural transform of a parseable tree. -/
theorem countC_cppOfProgram (t : LNode) (hwf : WFProgram t = true) :
    countC (cppOfProgram t) = countL t + topCount t + callCountL t := by
  cases t with
  | call nm ps => simp [WFProgram] at hwf
  | num v => simp [WFProgram] at hwf
  | program nm body =>
    rw [WFProgram] at hwf
    rw [cppOfProgram, countC, count_cpp_tops body hwf, countL, topCount, callCountL]
    omega

/-- Claim C3: for every parseable source tree the transformer succeeds
and builds exactly the structural transform `cppOfProgram`, in which —
by the definitions of `cppOfProgram` / `cppOfTop` / `cppOfArg` — every
top-level call (source parent: the `Program`) is wrapped in an
`ExpressionStatement` while every nested call (source parent: a
`CallExpression`) is attached bare as a parameter; the conjunct
`stmtWrapOnlyTop` states the "exactly" part: all body elements are
wrapped and no wrapper occurs anywhere below. -/
theorem C3_statement_wrapping (toks : List Tok) (t : LNode) (h : Parse toks = .ok t) :
    TransformLispAstToCppAst t = .ok (cppOfProgram t) ∧
    stmtWrapOnlyTop (cppOfProgram t) = true := by
  have hwf := Parse_wf toks t h
  exact ⟨transform_ok t hwf, stmtWrapOnlyTop_cppOfProgram t hwf⟩

/-- Witness for C3 on `(add 2 (subtract 4 2))`: one wrapped top-level
call, one bare nested call. -/
theorem C3_witness :
    Parse [Tok.mk .paren "(", Tok.mk .name "add", Tok.mk .number "2",
        Tok.mk .paren "(", Tok.mk .name "subtract", Tok.mk .number "4",
        Tok.mk .number "2", Tok.mk .paren ")", Tok.mk .paren ")"] =
      .ok (LNode.program "" [LNode.call "add"
        [LNode.num 2, LNode.call "subtract" [LNode.num 4, LNode.num 2]]]) ∧
    (TransformLispAstToCppAst (LNode.program "" [LNode.call "add"
        [LNode.num 2, LNode.call "subtract" [LNode.num 4, LNode.num 2]]]) =
      .ok (cppOfProgram (LNode.program "" [LNode.call "add"
        [LNode.num 2, LNode.call "subtract" [LNode.num 4, LNode.num 2]]])) ∧
     stmtWrapOnlyTop (cppOfProgram (LNode.program "" [LNode.call "add"
        [LNode.num 2, LNode.call "subtract" [LNode.num 4, LNode.num 2]]])) = true) := by
  have hp : Parse [Tok.mk .paren "(", Tok.mk .name "add", Tok.mk .number "2",
      Tok.mk .paren "(", Tok.mk .name "subtract", Tok.mk .number "4",
      Tok.mk .number "2", Tok.mk .paren ")", Tok.mk .paren ")"] =
      .ok (LNode.program "" [LNode.call "add"
        [LNode.num 2, LNode.call "subtract" [LNode.num 4, LNode.num 2]]]) := by
    simp [Parse, parseProgram, ParseCallExpression, parseArgs, stoi]
  exact ⟨hp, C3_statement_wrapping _ _ hp⟩

/-- Claim C4, counterexample: the source `(add 2 2)` parses to a 4-node
tree (Program, CallExpression, two NumberLiterals) with one top-level
call, but the transform output has 6 nodes — the extra
`ExpressionStatement` AND an `IdentifierNode` callee, which the claimed
equation (source count plus top-level calls = 5) fails to count. -/
theorem C4_counterexample :
    Parse [Tok.mk .paren "(", Tok.mk .name "add", Tok.mk .number "2",
        Tok.mk .number "2", Tok.mk .paren ")"] =
      .ok (LNode.program "" [LNode.call "add" [LNode.num 2, LNode.num 2]]) ∧
    TransformLispAstToCppAst (LNode.program "" [LNode.call "add" [LNode.num 2, LNode.num 2]]) =
      .ok (CNode.program "" [CNode.exprStmt (CNode.callExpr (CNode.ident "add")
        [CNode.numLit 2, CNode.numLit 2])]) ∧
    countC (CNode.program "" [CNode.exprStmt (CNode.callExpr (CNode.ident "add")
        [CNode.numLit 2, CNode.numLit 2])]) = 6 ∧
    countL (LNode.program "" [LNode.call "add" [LNode.num 2, LNode.num 2]]) = 4 ∧
    topCount (LNode.program "" [LNode.call "add" [LNode.num 2, LNode.num 2]]) = 1 ∧
    countC (CNode.program "" [CNode.exprStmt (CNode.callExpr (CNode.ident "add")
        [CNode.numLit 2, CNode.numLit 2])]) ≠
      countL (LNode.program "" [LNode.call "add" [LNode.num 2, LNode.num 2]]) +
        topCount (LNode.program "" [LNode.call "add" [LNode.num 2, LNode.num 2]]) := by
  have hwf : WFProgram (LNode.program "" [LNode.call "add" [LNode.num 2, LNode.num 2]]) =
      true := by
    simp [WFProgram, WFTop, WFArgs, WFArg]
  have htr := transform_ok _ hwf
  have hcpp : cppOfProgram (LNode.program "" [LNode.call "add" [LNode.num 2, LNode.num 2]]) =
      CNode.program "" [CNode.exprStmt (CNode.callExpr (CNode.ident "add")
        [CNode.numLit 2, CNode.numLit 2])] := by
    simp [cppOfProgram, cppOfTop, cppOfArg, cppOfArgs]
  have hc6 : countC (CNode.program "" [CNode.exprStmt (CNode.callExpr (CNode.ident "add")
      [CNode.numLit 2, CNode.numLit 2])]) = 6 := by
    simp [countC, countCs]
  have hc4 : countL (LNode.program "" [LNode.call "add" [LNode.num 2, LNode.num 2]]) = 4 := by
    simp [countL, countLs]
  refine ⟨?_, ?_, hc6, hc4, rfl, ?_⟩
  · simp [Parse, parseProgram, ParseCallExpression, parseArgs, stoi]
  · rw [htr, hcpp]
  · rw [hc6, hc4]
    decide

/-- Claim C4, amended: the transform is total over all parseable source
trees, and the target node count equals the source node count plus the
number of top-level call expressions (one `ExpressionStatement` each)
PLUS the number of call expressions (one `IdentifierNode` callee
each). -/
theorem C4_transform_total_count (toks : List Tok) (t : LNode) (h : Parse toks = .ok t) :
    ∃ u, TransformLispAstToCppAst t = .ok u ∧
      countC u = countL t + topCount t + callCountL t := by
  have hwf := Parse_wf toks t h
  exact ⟨cppOfProgram t, transform_ok t hwf, countC_cppOfProgram t hwf⟩

/-- Witness for C4 on `(add 2 2)`: 6 = 4 + 1 + 1. -/
theorem C4_witness :
    Parse [Tok.mk .paren "(", Tok.mk .name "add", Tok.mk .number "2",
        Tok.mk .number "2", Tok.mk .paren ")"] =
      .ok (LNode.program "" [LNode.call "add" [LNode.num 2, LNode.num 2]]) ∧
    (∃ u, TransformLispAstToCppAst
        (LNode.program "" [LNode.call "add" [LNode.num 2, LNode.num 2]]) = .ok u ∧
      countC u = countL (LNode.program "" [LNode.call "add" [LNode.num 2, LNode.num 2]]) +
        topCount (LNode.program "" [LNode.call "add" [LNode.num 2, LNode.num 2]]) +
        callCountL (LNode.program "" [LNode.call "add" [LNode.num 2, LNode.num 2]])) := by
  have hp : Parse [Tok.mk .paren "(", Tok.mk .name "add", Tok.mk .number "2",
      Tok.mk .number "2", Tok.mk .paren ")"] =
      .ok (LNode.program "" [LNode.call "add" [LNode.num 2, LNode.num 2]]) := by
    simp [Parse, parseProgram, ParseCallExpression, parseArgs, stoi]
  exact ⟨hp, C4_transform_total_count _ _ hp⟩

/-- Claim C9: on every tree `Parse` produces, the full compile's
traversals hit neither internal-consistency fault.  The closed
inductive `LNode` embeds the closed variant set, so the unknown-variant
assertion (`assert(false && "Unhandled node type")`) has no
representable trigger; and the transformer run returns `.ok`, so none
of the modelled faults of `IErr` — the `Visit` parent assertions
included, and in particular `missingTarget`, the `GetContextVector`
insertion-target lookup assertion — is reached: pre-order visitation
registers every node's insertion target before its children look it
up. -/
theorem C9_internal_faults_unreachable (toks : List Tok) (t : LNode)
    (h : Parse toks = .ok t) :
    ∃ u, TransformLispAstToCppAst t = .ok u :=
  ⟨cppOfProgram t, transform_ok t (Parse_wf toks t h)⟩

/-- Witness for C9 on the first statement of the sample program of
`main`, `(add 2 (subtract 4 2))`. -/
theorem C9_witness :
    Parse [Tok.mk .paren "(", Tok.mk .name "add", Tok.mk .number "2",
        Tok.mk .paren "(", Tok.mk .name "subtract", Tok.mk .number "4",
        Tok.mk .number "2", Tok.mk .paren ")", Tok.mk .paren ")"] =
      .ok (LNode.program "" [LNode.call "add"
        [LNode.num 2, LNode.call "subtract" [LNode.num 4, LNode.num 2]]]) ∧
    (∃ u, TransformLispAstToCppAst (LNode.program "" [LNode.call "add"
        [LNode.num 2, LNode.call "subtract" [LNode.num 4, LNode.num 2]]]) = .ok u) := by
  have hp : Parse [Tok.mk .paren "(", Tok.mk .name "add", Tok.mk .number "2",
      Tok.mk .paren "(", Tok.mk .name "subtract", Tok.mk .number "4",
      Tok.mk .number "2", Tok.mk .paren ")", Tok.mk .paren ")"] =
      .ok (LNode.program "" [LNode.call "add"
        [LNode.num 2, LNode.call "subtract" [LNode.num 4, LNode.num 2]]]) := by
    simp [Parse, parseProgram, ParseCallExpression, parseArgs, stoi]
  exact ⟨hp, C9_internal_faults_unreachable _ _ hp⟩

theorem intercalate_cons_cons (s x y : String) (l : List String) :
    String.intercalate s (x :: y :: l) = x ++ s ++ String.intercalate s (y :: l) := by
  show String.intercalate.go x s (y :: l) = _
  show String.intercalate.go (x ++ s ++ y) s l = x ++ s ++ String.intercalate.go y s l
  induction l generalizing x y with
  | nil => simp [String.intercalate.go]
  | cons z zs ih =>
    rw [String.intercalate.go, String.intercalate.go, ih (x ++ s ++ y) z, ih y z]
    simp [String.append_assoc]

theorem genParams_intercalate (ps : List CNode) :
    genParams ps = String.intercalate ", " (ps.map GenerateCode) := by
  induction ps with
  | nil => rw [genParams, List.map_nil]; rfl
  | cons x xs ih =>
    cases xs with
    | nil => rw [genParams, List.map_cons, List.map_nil]; rfl
    | cons y ys =>
      rw [genParams, List.map_cons, List.map_cons,
        intercalate_cons_cons ", " (GenerateCode x) (GenerateCode y) (ys.map GenerateCode),
        ← List.map_cons GenerateCode y ys, ih]

/-- Claim C5: code generation (spec-modelled, `GenerateCode`) is a
deterministic, stateless pure recursive function — identical target
trees yield identical text by construction — and a `CallExpression`
renders as its callee text, `(`, the parameters each rendered exactly
once and joined by `, ` strictly between adjacent elements (no leading
or trailing separator, as expressed by `String.intercalate`), then
`)`. -/
theorem C5_call_rendering (callee : CNode) (ps : List CNode) :
    GenerateCode (CNode.callExpr callee ps) =
      GenerateCode callee ++ "(" ++ String.intercalate ", " (ps.map GenerateCode) ++ ")" := by
  rw [GenerateCode, genParams_intercalate]
